import Mathlib

/-!
Verification of the `aligntools` library (CIGAR alignment algebra).

The definitions below are a shallow embedding of the Python sources under
`src/aligntools/`: `cigar_actions.py`, `int_dict.py`, `coordinate_mapping.py`,
`cigar.py`, `cigar_hit.py` and `exceptions.py`.  Python machine integers are
modelled as `Int`/`Nat`, `fractions.Fraction` as `Rat`, strings as `List Char`,
and raised exceptions as `Except PyErr`.
-/

namespace Aligntools

/-- Error kinds of the library, one per exception class that the sources
refer to, plus Python built-in `AttributeError` (which surfaces when code
accesses a name that a module does not define). -/
inductive PyErr where
  | coersion
  | parseError
  | msaLength
  | invalidOperation
  | cigarHitRange
  | cigarConnect
  | cigarAdd
  | cigarCut
  | emptyCigarHitList
  | attributeError (name : String)
deriving DecidableEq, Repr


/-- The nine CIGAR operations, from `cigar_actions.py` (`CigarActions`). -/
inductive CigarActions where
  | MATCH | INSERT | DELETE | SKIPPED | SOFT_CLIPPED | HARD_CLIPPED | PADDING | SEQ_MATCH | MISMATCH
deriving DecidableEq, Repr

open CigarActions

/-- Operations that `Cigar.iterate_operations_with_pointers` treats as
consuming the reference: the `MATCH/SEQ_MATCH/MISMATCH` group and the
`DELETE/SKIPPED` group. -/
def consumesRef : CigarActions → Bool
  | MATCH | SEQ_MATCH | MISMATCH | DELETE | SKIPPED => true
  | _ => false

/-- Operations that `Cigar.iterate_operations_with_pointers` treats as
consuming the query: the `MATCH/SEQ_MATCH/MISMATCH` group and the
`INSERT/SOFT_CLIPPED` group. -/
def consumesQuery : CigarActions → Bool
  | MATCH | SEQ_MATCH | MISMATCH | INSERT | SOFT_CLIPPED => true
  | _ => false

/-- Decoding of a run-length encoded operation list
(`Cigar.iterate_operations`). -/
def expand (l : List (Nat × CigarActions)) : List CigarActions :=
  l.flatMap fun p => List.replicate p.1 p.2

/-- Merging a run of `n` copies of `a` onto the front of an already-encoded
list, coalescing with the head run when the operations agree. -/
def mergeRun (n : Nat) (a : CigarActions) :
    List (Nat × CigarActions) → List (Nat × CigarActions)
  | [] => [(n, a)]
  | (m, b) :: t => if a = b then (n + m, b) :: t else (n, a) :: (m, b) :: t

/-- The normalization performed by `Cigar.normalize`: zero-count items are
dropped and adjacent items with equal operations are coalesced by summing
their counts.  The Python generator folds from the left while this definition
folds from the right; both compute the same canonical run-length coalescing
(`normalize_eq_canon` below).  The Python generator also type-checks every
item and rejects negative counts; counts here are `Nat`, and the
negative-count check is modelled at the call site that passes raw integer
data (`cigarCoerceList`). -/
def normalize : List (Nat × CigarActions) → List (Nat × CigarActions)
  | [] => []
  | (n, a) :: rest => if n = 0 then normalize rest else mergeRun n a (normalize rest)

/-- A run-length encoded list is in canonical form when every count is
positive and no two adjacent runs carry the same operation. -/
def IsNormal (l : List (Nat × CigarActions)) : Prop :=
  (∀ p ∈ l, 1 ≤ p.1) ∧ l.Chain' (fun p q => p.2 ≠ q.2)

/-- Canonical run-length encoding of a decoded operation list; a
specification-side handle used to reason about `normalize`. -/
def canon : List CigarActions → List (Nat × CigarActions)
  | [] => []
  | a :: s => mergeRun 1 a (canon s)

theorem expand_cons (n : Nat) (a : CigarActions) (l : List (Nat × CigarActions)) :
    expand ((n, a) :: l) = List.replicate n a ++ expand l := rfl

theorem expand_append (l m : List (Nat × CigarActions)) :
    expand (l ++ m) = expand l ++ expand m := by
  simp [expand]

theorem mergeRun_nil (n : Nat) (a : CigarActions) : mergeRun n a [] = [(n, a)] := rfl

theorem mergeRun_cons_eq (n m : Nat) (a : CigarActions) (t : List (Nat × CigarActions)) :
    mergeRun n a ((m, a) :: t) = (n + m, a) :: t := by
  simp [mergeRun]

theorem mergeRun_cons_ne (n m : Nat) {a b : CigarActions} (h : a ≠ b)
    (t : List (Nat × CigarActions)) :
    mergeRun n a ((m, b) :: t) = (n, a) :: (m, b) :: t := by
  simp [mergeRun, h]

theorem expand_mergeRun (n : Nat) (a : CigarActions) (r : List (Nat × CigarActions)) :
    expand (mergeRun n a r) = List.replicate n a ++ expand r := by
  rcases r with _ | ⟨⟨m, b⟩, t⟩
  · simp [mergeRun, expand]
  · by_cases hab : a = b
    · subst hab
      rw [mergeRun_cons_eq, expand_cons, expand_cons, List.replicate_add,
        List.append_assoc]
    · rw [mergeRun_cons_ne _ _ hab, expand_cons]

theorem mergeRun_mergeRun (n m : Nat) (a : CigarActions) (r : List (Nat × CigarActions)) :
    mergeRun n a (mergeRun m a r) = mergeRun (n + m) a r := by
  rcases r with _ | ⟨⟨k, b⟩, t⟩
  · rw [mergeRun_nil, mergeRun_cons_eq, mergeRun_nil]
  · by_cases hab : a = b
    · subst hab
      rw [mergeRun_cons_eq, mergeRun_cons_eq, mergeRun_cons_eq, Nat.add_assoc]
    · rw [mergeRun_cons_ne _ _ hab, mergeRun_cons_eq, mergeRun_cons_ne _ _ hab]

theorem mergeRun_isNormal {r : List (Nat × CigarActions)} (hr : IsNormal r)
    (n : Nat) (hn : 1 ≤ n) (a : CigarActions) : IsNormal (mergeRun n a r) := by
  obtain ⟨h1, h2⟩ := hr
  rcases r with _ | ⟨⟨m, b⟩, t⟩
  · exact ⟨by simpa [mergeRun_nil] using hn, by simp [mergeRun_nil]⟩
  · by_cases hab : a = b
    · subst hab
      rw [mergeRun_cons_eq]
      refine ⟨?_, ?_⟩
      · intro p hp
        rcases List.mem_cons.mp hp with hp | hp
        · rw [hp]; simp; omega
        · exact h1 p (List.mem_cons_of_mem _ hp)
      · rcases List.chain'_cons'.mp h2 with ⟨hh, ht⟩
        exact List.chain'_cons'.mpr ⟨fun y hy => hh y hy, ht⟩
    · rw [mergeRun_cons_ne _ _ hab]
      refine ⟨?_, List.chain'_cons'.mpr ⟨?_, h2⟩⟩
      · intro p hp
        rcases List.mem_cons.mp hp with hp | hp
        · rw [hp]; exact hn
        · exact h1 p hp
      · intro y hy
        rw [List.head?_cons, Option.mem_def, Option.some_inj] at hy
        rw [← hy]
        exact hab

theorem expand_canon (s : List CigarActions) : expand (canon s) = s := by
  induction s with
  | nil => rfl
  | cons a s ih =>
    show expand (mergeRun 1 a (canon s)) = a :: s
    rw [expand_mergeRun, ih, List.replicate_one, List.singleton_append]

theorem canon_isNormal (s : List CigarActions) : IsNormal (canon s) := by
  induction s with
  | nil => exact ⟨by simp [canon], by simp [canon]⟩
  | cons a s ih => exact mergeRun_isNormal ih 1 (by omega) a

theorem canon_replicate_append (n : Nat) (hn : 1 ≤ n) (a : CigarActions)
    (s : List CigarActions) :
    canon (List.replicate n a ++ s) = mergeRun n a (canon s) := by
  induction n with
  | zero => omega
  | succ k ih =>
    by_cases hk : 1 ≤ k
    · rw [List.replicate_succ, List.cons_append]
      show mergeRun 1 a (canon (List.replicate k a ++ s)) = _
      rw [ih hk, mergeRun_mergeRun, Nat.add_comm]
    · have hk0 : k = 0 := by omega
      subst hk0
      rw [List.replicate_one, List.singleton_append]
      rfl

theorem normalize_eq_canon (l : List (Nat × CigarActions)) :
    normalize l = canon (expand l) := by
  induction l with
  | nil => rfl
  | cons p rest ih =>
    obtain ⟨n, a⟩ := p
    show (if n = 0 then normalize rest else mergeRun n a (normalize rest)) = _
    by_cases hn : n = 0
    · subst hn
      rw [if_pos rfl, expand_cons, List.replicate_zero, List.nil_append, ih]
    · rw [if_neg hn, expand_cons, canon_replicate_append n (by omega) a (expand rest), ← ih]

theorem normalize_isNormal (l : List (Nat × CigarActions)) : IsNormal (normalize l) := by
  rw [normalize_eq_canon]; exact canon_isNormal _

theorem expand_normalize (l : List (Nat × CigarActions)) :
    expand (normalize l) = expand l := by
  rw [normalize_eq_canon, expand_canon]

theorem canon_expand_of_isNormal (l : List (Nat × CigarActions)) (h : IsNormal l) :
    canon (expand l) = l := by
  induction l with
  | nil => rfl
  | cons p rest ih =>
    obtain ⟨n, a⟩ := p
    obtain ⟨h1, h2⟩ := h
    have hrest : IsNormal rest :=
      ⟨fun q hq => h1 q (List.mem_cons_of_mem _ hq), (List.chain'_cons'.mp h2).2⟩
    have hn : 1 ≤ n := h1 (n, a) (List.mem_cons_self _ _)
    rw [expand_cons, canon_replicate_append n hn a (expand rest), ih hrest]
    rcases hr : rest with _ | ⟨⟨m, b⟩, t⟩
    · rfl
    · have hab : a ≠ b := by
        have := (List.chain'_cons'.mp h2).1 (m, b) (by rw [hr]; rfl)
        simpa using this
      rw [mergeRun_cons_ne _ _ hab]

theorem normalize_of_isNormal (l : List (Nat × CigarActions)) (h : IsNormal l) :
    normalize l = l := by
  rw [normalize_eq_canon, canon_expand_of_isNormal l h]

/-- A CIGAR value (`cigar.py`, class `Cigar`): the stored `_data` tuple.
Since `Cigar.__init__` always routes its argument through `Cigar.normalize`,
every value of the Python class is canonically normalized; the invariant is
carried in the structure. -/
structure Cigar where
  data : List (Nat × CigarActions)
  wf : IsNormal data

theorem Cigar.ext_data : ∀ {a b : Cigar}, a.data = b.data → a = b
  | ⟨_, _⟩, ⟨_, _⟩, rfl => rfl

instance : DecidableEq Cigar := fun a b =>
  decidable_of_iff (a.data = b.data) ⟨Cigar.ext_data, fun h => by rw [h]⟩

/-- Construction of a `Cigar` from a list of items (`Cigar.__init__`, which
stores `tuple(Cigar.normalize(data))`). -/
def Cigar.ofList (l : List (Nat × CigarActions)) : Cigar :=
  ⟨normalize l, normalize_isNormal l⟩

/-- The empty CIGAR, `Cigar([])`. -/
def emptyCigar : Cigar := Cigar.ofList []

/-- Decoded operation stream of a `Cigar` (`Cigar.iterate_operations`). -/
def Cigar.ops (c : Cigar) : List CigarActions := expand c.data

/-- Concatenation of two CIGARs (`Cigar.__add__`:
`Cigar(self._data + other._data)`). -/
def Cigar.add (a b : Cigar) : Cigar := Cigar.ofList (a.data ++ b.data)

theorem Cigar.ofList_data (l : List (Nat × CigarActions)) :
    (Cigar.ofList l).data = normalize l := rfl

theorem Cigar.ofList_eq_of_expand_eq {l m : List (Nat × CigarActions)}
    (h : expand l = expand m) : Cigar.ofList l = Cigar.ofList m := by
  apply Cigar.ext_data
  rw [Cigar.ofList_data, Cigar.ofList_data, normalize_eq_canon, normalize_eq_canon, h]

theorem Cigar.ofList_data_self (c : Cigar) : Cigar.ofList c.data = c := by
  apply Cigar.ext_data
  rw [Cigar.ofList_data, normalize_of_isNormal c.data c.wf]

theorem Cigar.ops_ofList (l : List (Nat × CigarActions)) :
    (Cigar.ofList l).ops = expand l := by
  rw [Cigar.ops, Cigar.ofList_data, expand_normalize]

theorem Cigar.add_data (a b : Cigar) :
    (Cigar.add a b).data = canon (a.ops ++ b.ops) := by
  rw [Cigar.add, Cigar.ofList_data, normalize_eq_canon, expand_append]
  rfl

theorem Cigar.ops_add (a b : Cigar) : (Cigar.add a b).ops = a.ops ++ b.ops := by
  rw [Cigar.ops, Cigar.add_data, expand_canon]

/-- A `Cigar` is recovered from its operation stream. -/
theorem Cigar.canon_ops (c : Cigar) : canon c.ops = c.data :=
  canon_expand_of_isNormal c.data c.wf

theorem Cigar.eq_of_ops_eq {a b : Cigar} (h : a.ops = b.ops) : a = b := by
  apply Cigar.ext_data
  rw [← Cigar.canon_ops a, ← Cigar.canon_ops b, h]

/-- C7 auxiliary fact: `expand` of the empty CIGAR. -/
theorem emptyCigar_ops : emptyCigar.ops = [] := rfl

/-- C7: CIGAR concatenation is associative, the empty CIGAR is a two-sided
identity, and every concatenation result is canonically normalized.  This
settles the monoid laws claimed by the specification for `Cigar.__add__`. -/
theorem cigar_add_monoid (a b c : Cigar) :
    Cigar.add (Cigar.add a b) c = Cigar.add a (Cigar.add b c) ∧
    Cigar.add emptyCigar a = a ∧
    Cigar.add a emptyCigar = a ∧
    IsNormal (Cigar.add a b).data := by
  refine ⟨?_, ?_, ?_, (Cigar.add a b).wf⟩
  · apply Cigar.eq_of_ops_eq
    rw [Cigar.ops_add, Cigar.ops_add, Cigar.ops_add, Cigar.ops_add, List.append_assoc]
  · apply Cigar.eq_of_ops_eq
    rw [Cigar.ops_add, emptyCigar_ops, List.nil_append]
  · apply Cigar.eq_of_ops_eq
    rw [Cigar.ops_add, emptyCigar_ops, List.append_nil]

/-- One yielded element of `Cigar.iterate_operations_with_pointers`, paired
with its position in the stream (the `enumerate` counter used by callers). -/
structure OpInfo where
  idx : Int
  op : CigarActions
  refPtr : Option Int
  qPtr : Option Int
deriving DecidableEq, Repr

/-- The walk of `Cigar.iterate_operations_with_pointers` (together with the
`enumerate` index): `MATCH/SEQ_MATCH/MISMATCH` yield both pointers and
advance both; `INSERT/SOFT_CLIPPED` yield and advance only the query
pointer; `DELETE/SKIPPED` yield and advance only the reference pointer;
`HARD_CLIPPED/PADDING` yield neither. -/
def annotate : List CigarActions → Int → Int → Int → List OpInfo
  | [], _, _, _ => []
  | a :: rest, i, r, q =>
    if consumesRef a && consumesQuery a then
      ⟨i, a, some r, some q⟩ :: annotate rest (i + 1) (r + 1) (q + 1)
    else if consumesQuery a then
      ⟨i, a, none, some q⟩ :: annotate rest (i + 1) r (q + 1)
    else if consumesRef a then
      ⟨i, a, some r, none⟩ :: annotate rest (i + 1) (r + 1) q
    else
      ⟨i, a, none, none⟩ :: annotate rest (i + 1) r q

/-- Annotated stream of a CIGAR, starting from index 0 and zero-based
pointers. -/
def Cigar.opsPtrs (c : Cigar) : List OpInfo := annotate c.ops 0 0 0

/-- Number of reference-consuming operations in a stream. -/
def countRef (l : List CigarActions) : Nat := l.countP (fun a => consumesRef a)

/-- Number of query-consuming operations in a stream. -/
def countQuery (l : List CigarActions) : Nat := l.countP (fun a => consumesQuery a)

/-- The `ref_to_query` mapping built by `Cigar.coordinate_mapping`, as the
list of key/value pairs inserted by `CoordinateMapping.extend` (keys are
distinct, so the Python dict is faithfully an association list). -/
def refToQueryL (l : List OpInfo) : List (Int × Int) :=
  l.filterMap fun o =>
    match o.refPtr, o.qPtr with
    | some r, some q => some (r, q)
    | _, _ => none

/-- The `query_to_ref` mapping of `Cigar.coordinate_mapping`. -/
def queryToRefL (l : List OpInfo) : List (Int × Int) :=
  l.filterMap fun o =>
    match o.refPtr, o.qPtr with
    | some r, some q => some (q, r)
    | _, _ => none

/-- The `ref_to_op` mapping of `Cigar.coordinate_mapping`. -/
def refToOpL (l : List OpInfo) : List (Int × Int) :=
  l.filterMap fun o => o.refPtr.map fun r => (r, o.idx)

/-- The `query_to_op` mapping of `Cigar.coordinate_mapping`. -/
def queryToOpL (l : List OpInfo) : List (Int × Int) :=
  l.filterMap fun o => o.qPtr.map fun q => (q, o.idx)

def Cigar.refToQuery (c : Cigar) : List (Int × Int) := refToQueryL c.opsPtrs

def Cigar.queryToRef (c : Cigar) : List (Int × Int) := queryToRefL c.opsPtrs

def Cigar.refToOp (c : Cigar) : List (Int × Int) := refToOpL c.opsPtrs

def Cigar.queryToOp (c : Cigar) : List (Int × Int) := queryToOpL c.opsPtrs

/-- Python `max(xs, default=None)`. -/
def listMax? : List Int → Option Int
  | [] => none
  | x :: xs => some (xs.foldl max x)

/-- Python `min(xs, default=None)`. -/
def listMin? : List Int → Option Int
  | [] => none
  | x :: xs => some (xs.foldl min x)

/-- The `IntDict.left_max` lookup (`int_dict.py`):
`max((v for (k, v) in self.items() if k <= index), default=None)`. -/
def leftMax (d : List (Int × Int)) (i : Int) : Option Int :=
  listMax? ((d.filter fun p => p.1 ≤ i).map (fun p => p.2))

/-- The `IntDict.right_min` lookup (`int_dict.py`):
`min((v for (k, v) in self.items() if k >= index), default=None)`. -/
def rightMin (d : List (Int × Int)) (i : Int) : Option Int :=
  listMin? ((d.filter fun p => i ≤ p.1).map (fun p => p.2))

/-- Python `dict.get` on an association list with distinct keys. -/
def dictGet (d : List (Int × Int)) (k : Int) : Option Int :=
  (d.find? fun p => p.1 = k).map (fun p => p.2)

/-- Source definition of `Cigar.op_length`: the length of the decoded
stream. -/
def Cigar.opLength (c : Cigar) : Nat := c.ops.length

/-- The value `r + 1 if ref_pointer is not None else 0` contributed by one
stream element to `Cigar.ref_length`. -/
def refVal (o : OpInfo) : Int :=
  match o.refPtr with | some r => r + 1 | none => 0

/-- The value `q + 1 if query_pointer is not None else 0` contributed by one
stream element to `Cigar.query_length`. -/
def queryVal (o : OpInfo) : Int :=
  match o.qPtr with | some q => q + 1 | none => 0

/-- Source definition of `Cigar.ref_length`:
`max((r + 1 if r is not None else 0 for ...), default=0)`. -/
def Cigar.refLength (c : Cigar) : Int := (c.opsPtrs.map refVal).foldl max 0

/-- Source definition of `Cigar.query_length`. -/
def Cigar.queryLength (c : Cigar) : Int := (c.opsPtrs.map queryVal).foldl max 0

/-- Translation of one annotated element by an index offset, a reference
offset and a query offset. -/
def shiftInfo (i r q : Int) (o : OpInfo) : OpInfo :=
  ⟨o.idx + i, o.op, o.refPtr.map (· + r), o.qPtr.map (· + q)⟩

theorem shiftInfo_shiftInfo (i r q i' r' q' : Int) (o : OpInfo) :
    shiftInfo i r q (shiftInfo i' r' q' o) = shiftInfo (i' + i) (r' + r) (q' + q) o := by
  obtain ⟨idx, op, rp, qp⟩ := o
  cases rp <;> cases qp <;> simp [shiftInfo] <;> try omega

theorem annotate_shift (xs : List CigarActions) :
    ∀ i r q : Int, annotate xs i r q = (annotate xs 0 0 0).map (shiftInfo i r q) := by
  induction xs with
  | nil => intro i r q; rfl
  | cons a xs ih =>
    intro i r q
    rcases hcr : consumesRef a <;> rcases hcq : consumesQuery a <;>
      simp only [annotate, hcr, hcq, Bool.false_and, Bool.true_and, if_true, if_false,
        Bool.false_eq_true, List.map_cons]
    all_goals
      rw [ih (i + 1), ih (0 + 1), List.map_map]
      congr 1
      · simp [shiftInfo]
      · refine List.map_congr_left fun o _ => ?_
        rw [Function.comp_apply, shiftInfo_shiftInfo]
        congr 1 <;> ring

theorem annotate_length (xs : List CigarActions) (i r q : Int) :
    (annotate xs i r q).length = xs.length := by
  induction xs generalizing i r q with
  | nil => rfl
  | cons a xs ih =>
    rcases hcr : consumesRef a <;> rcases hcq : consumesQuery a <;>
      simp [annotate, hcr, hcq, ih]

theorem countRef_cons (a : CigarActions) (xs : List CigarActions) :
    countRef (a :: xs) = countRef xs + (if consumesRef a then 1 else 0) := by
  simp [countRef, List.countP_cons]

theorem countQuery_cons (a : CigarActions) (xs : List CigarActions) :
    countQuery (a :: xs) = countQuery xs + (if consumesQuery a then 1 else 0) := by
  simp [countQuery, List.countP_cons]

theorem countRef_append (xs ys : List CigarActions) :
    countRef (xs ++ ys) = countRef xs + countRef ys := by
  simp [countRef, List.countP_append]

theorem countQuery_append (xs ys : List CigarActions) :
    countQuery (xs ++ ys) = countQuery xs + countQuery ys := by
  simp [countQuery, List.countP_append]

theorem annotate_append (xs ys : List CigarActions) (i r q : Int) :
    annotate (xs ++ ys) i r q =
      annotate xs i r q ++
        annotate ys (i + xs.length) (r + countRef xs) (q + countQuery xs) := by
  induction xs generalizing i r q with
  | nil => simp [annotate, countRef, countQuery]
  | cons a xs ih =>
    rcases hcr : consumesRef a <;> rcases hcq : consumesQuery a <;>
      simp only [List.cons_append, annotate, hcr, hcq, Bool.false_and, Bool.true_and,
        if_true, if_false, Bool.false_eq_true, List.length_cons, countRef_cons,
        countQuery_cons, List.cons.injEq, true_and]
    all_goals
      rw [List.append_eq, ih]
      push_cast
      ring_nf

theorem annotate_refPtr_bounds (xs : List CigarActions) (i r q : Int) (o : OpInfo)
    (ho : o ∈ annotate xs i r q) (rv : Int) (hrv : o.refPtr = some rv) :
    r ≤ rv ∧ rv < r + countRef xs := by
  induction xs generalizing i r q with
  | nil => simp [annotate] at ho
  | cons a xs ih =>
    have hc : (countRef (a :: xs) : Int)
        = countRef xs + (if consumesRef a then 1 else 0) := by
      simp [countRef, List.countP_cons]
    rcases hcr : consumesRef a <;> rcases hcq : consumesQuery a <;>
      rw [hcr] at hc <;>
      simp only [if_true, if_false, Bool.false_eq_true] at hc <;>
      rw [hc] <;>
      simp only [annotate, hcr, hcq, Bool.false_and, Bool.true_and, if_true, if_false,
        Bool.false_eq_true, List.mem_cons] at ho <;>
      rcases ho with rfl | ho
    case cons.false.false.inl | cons.false.true.inl =>
      all_goals simp at hrv
    case cons.true.false.inl | cons.true.true.inl =>
      all_goals (simp only [Option.some.injEq] at hrv; omega)
    all_goals (have hio := ih _ _ _ ho; omega)

theorem annotate_qPtr_bounds (xs : List CigarActions) (i r q : Int) (o : OpInfo)
    (ho : o ∈ annotate xs i r q) (qv : Int) (hqv : o.qPtr = some qv) :
    q ≤ qv ∧ qv < q + countQuery xs := by
  induction xs generalizing i r q with
  | nil => simp [annotate] at ho
  | cons a xs ih =>
    have hc : (countQuery (a :: xs) : Int)
        = countQuery xs + (if consumesQuery a then 1 else 0) := by
      simp [countQuery, List.countP_cons]
    rcases hcr : consumesRef a <;> rcases hcq : consumesQuery a <;>
      rw [hcq] at hc <;>
      simp only [if_true, if_false, Bool.false_eq_true] at hc <;>
      rw [hc] <;>
      simp only [annotate, hcr, hcq, Bool.false_and, Bool.true_and, if_true, if_false,
        Bool.false_eq_true, List.mem_cons] at ho <;>
      rcases ho with rfl | ho
    case cons.false.false.inl | cons.true.false.inl =>
      all_goals simp at hqv
    case cons.false.true.inl | cons.true.true.inl =>
      all_goals (simp only [Option.some.injEq] at hqv; omega)
    all_goals (have hio := ih _ _ _ ho; omega)

theorem annotate_ptr_isSome (xs : List CigarActions) (i r q : Int) (o : OpInfo)
    (ho : o ∈ annotate xs i r q) :
    o.refPtr.isSome = consumesRef o.op ∧ o.qPtr.isSome = consumesQuery o.op := by
  induction xs generalizing i r q with
  | nil => simp [annotate] at ho
  | cons a xs ih =>
    rcases hcr : consumesRef a <;> rcases hcq : consumesQuery a <;>
      simp only [annotate, hcr, hcq, Bool.false_and, Bool.true_and, if_true, if_false,
        Bool.false_eq_true, List.mem_cons] at ho <;>
      rcases ho with rfl | ho <;>
      first
        | (exact ih _ _ _ ho)
        | simp [hcr, hcq]

theorem annotate_foldl_refVal (xs : List CigarActions) :
    ∀ i r q m : Int, 0 ≤ m → m ≤ r →
      ((annotate xs i r q).map refVal).foldl max m =
        if countRef xs = 0 then m else r + countRef xs := by
  induction xs with
  | nil => intro i r q m _ _; simp [annotate, countRef]
  | cons a xs ih =>
    intro i r q m hm hmr
    rcases hcr : consumesRef a <;> rcases hcq : consumesQuery a <;>
      simp only [annotate, hcr, hcq, Bool.false_and, Bool.true_and, if_true, if_false,
        Bool.false_eq_true, List.map_cons, List.foldl_cons, refVal, countRef_cons,
        Nat.add_zero]
    case false.false | false.true =>
      all_goals
        rw [max_eq_left hm]
        exact ih _ _ _ m hm hmr
    case true.false | true.true =>
      all_goals
        rw [max_eq_right (by omega)]
        rw [ih _ _ _ (r + 1) (by omega) (by omega)]
        by_cases h0 : countRef xs = 0
        · rw [if_pos h0, if_neg (by omega), h0]
          push_cast
          ring
        · rw [if_neg h0, if_neg (by omega)]
          push_cast
          ring

theorem annotate_foldl_queryVal (xs : List CigarActions) :
    ∀ i r q m : Int, 0 ≤ m → m ≤ q →
      ((annotate xs i r q).map queryVal).foldl max m =
        if countQuery xs = 0 then m else q + countQuery xs := by
  induction xs with
  | nil => intro i r q m _ _; simp [annotate, countQuery]
  | cons a xs ih =>
    intro i r q m hm hmq
    rcases hcr : consumesRef a <;> rcases hcq : consumesQuery a <;>
      simp only [annotate, hcr, hcq, Bool.false_and, Bool.true_and, if_true, if_false,
        Bool.false_eq_true, List.map_cons, List.foldl_cons, queryVal, countQuery_cons,
        Nat.add_zero]
    case false.false | true.false =>
      all_goals
        rw [max_eq_left hm]
        exact ih _ _ _ m hm hmq
    case false.true | true.true =>
      all_goals
        rw [max_eq_right (by omega)]
        rw [ih _ _ _ (q + 1) (by omega) (by omega)]
        by_cases h0 : countQuery xs = 0
        · rw [if_pos h0, if_neg (by omega), h0]
          push_cast
          ring
        · rw [if_neg h0, if_neg (by omega)]
          push_cast
          ring

/-- The max-based `Cigar.ref_length` equals the number of
reference-consuming operations of the decoded stream. -/
theorem Cigar.refLength_eq_countRef (c : Cigar) :
    c.refLength = countRef c.ops := by
  rw [Cigar.refLength, Cigar.opsPtrs, annotate_foldl_refVal c.ops 0 0 0 0 le_rfl le_rfl]
  by_cases h0 : countRef c.ops = 0
  · rw [if_pos h0, h0]
    rfl
  · rw [if_neg h0, zero_add]

/-- The max-based `Cigar.query_length` equals the number of query-consuming
operations of the decoded stream. -/
theorem Cigar.queryLength_eq_countQuery (c : Cigar) :
    c.queryLength = countQuery c.ops := by
  rw [Cigar.queryLength, Cigar.opsPtrs, annotate_foldl_queryVal c.ops 0 0 0 0 le_rfl le_rfl]
  by_cases h0 : countQuery c.ops = 0
  · rw [if_pos h0, h0]
    rfl
  · rw [if_neg h0, zero_add]

theorem foldl_max_mem (xs : List Int) (x : Int) : xs.foldl max x ∈ x :: xs := by
  induction xs generalizing x with
  | nil => simp
  | cons y ys ih =>
    rw [List.foldl_cons]
    rcases List.mem_cons.mp (ih (max x y)) with h | h
    · rcases max_choice x y with hm | hm <;> rw [h, hm] <;> simp
    · simp [h]

theorem foldl_max_isUB (xs : List Int) (x : Int) : ∀ y ∈ x :: xs, y ≤ xs.foldl max x := by
  induction xs generalizing x with
  | nil => intro y hy; simp at hy; simp [hy]
  | cons z zs ih =>
    intro y hy
    rw [List.foldl_cons]
    rcases List.mem_cons.mp hy with hy | hy
    · subst hy
      calc y ≤ max y z := le_max_left _ _
        _ ≤ zs.foldl max (max y z) := ih (max y z) _ (List.mem_cons_self _ _)
    · rcases List.mem_cons.mp hy with hy | hy
      · subst hy
        calc y ≤ max x y := le_max_right _ _
          _ ≤ zs.foldl max (max x y) := ih (max x y) _ (List.mem_cons_self _ _)
      · exact ih (max x z) y (List.mem_cons_of_mem _ hy)

theorem listMax?_eq_some_iff (l : List Int) (v : Int) :
    listMax? l = some v ↔ v ∈ l ∧ ∀ x ∈ l, x ≤ v := by
  constructor
  · intro h
    rcases l with _ | ⟨x, xs⟩
    · simp [listMax?] at h
    · rw [listMax?, Option.some_inj] at h
      subst h
      exact ⟨foldl_max_mem xs x, foldl_max_isUB xs x⟩
  · rintro ⟨hv, hub⟩
    rcases l with _ | ⟨x, xs⟩
    · simp at hv
    · rw [listMax?, Option.some_inj]
      have h1 := foldl_max_mem xs x
      have h2 := foldl_max_isUB xs x
      exact le_antisymm (hub _ h1) (h2 v hv)

theorem foldl_min_mem (xs : List Int) (x : Int) : xs.foldl min x ∈ x :: xs := by
  induction xs generalizing x with
  | nil => simp
  | cons y ys ih =>
    rw [List.foldl_cons]
    rcases List.mem_cons.mp (ih (min x y)) with h | h
    · rcases min_choice x y with hm | hm <;> rw [h, hm] <;> simp
    · simp [h]

theorem foldl_min_isLB (xs : List Int) (x : Int) : ∀ y ∈ x :: xs, xs.foldl min x ≤ y := by
  induction xs generalizing x with
  | nil => intro y hy; simp at hy; simp [hy]
  | cons z zs ih =>
    intro y hy
    rw [List.foldl_cons]
    rcases List.mem_cons.mp hy with hy | hy
    · subst hy
      calc zs.foldl min (min y z) ≤ min y z := ih (min y z) _ (List.mem_cons_self _ _)
        _ ≤ y := min_le_left _ _
    · rcases List.mem_cons.mp hy with hy | hy
      · subst hy
        calc zs.foldl min (min x y) ≤ min x y := ih (min x y) _ (List.mem_cons_self _ _)
          _ ≤ y := min_le_right _ _
      · exact ih (min x z) y (List.mem_cons_of_mem _ hy)

theorem listMin?_eq_some_iff (l : List Int) (v : Int) :
    listMin? l = some v ↔ v ∈ l ∧ ∀ x ∈ l, v ≤ x := by
  constructor
  · intro h
    rcases l with _ | ⟨x, xs⟩
    · simp [listMin?] at h
    · rw [listMin?, Option.some_inj] at h
      subst h
      exact ⟨foldl_min_mem xs x, foldl_min_isLB xs x⟩
  · rintro ⟨hv, hlb⟩
    rcases l with _ | ⟨x, xs⟩
    · simp at hv
    · rw [listMin?, Option.some_inj]
      have h1 := foldl_min_mem xs x
      have h2 := foldl_min_isLB xs x
      exact le_antisymm (h2 v hv) (hlb _ h1)

theorem listMax?_eq_none_iff (l : List Int) : listMax? l = none ↔ l = [] := by
  rcases l with _ | ⟨x, xs⟩ <;> simp [listMax?]

theorem listMin?_eq_none_iff (l : List Int) : listMin? l = none ↔ l = [] := by
  rcases l with _ | ⟨x, xs⟩ <;> simp [listMin?]

/-- A positioned alignment (`cigar_hit.py`, dataclass `CigarHit`): a CIGAR
together with inclusive reference and query intervals. -/
structure CigarHit where
  cigar : Cigar
  r_st : Int
  r_ei : Int
  q_st : Int
  q_ei : Int
deriving DecidableEq

instance {e a : Type} [DecidableEq e] [DecidableEq a] : DecidableEq (Except e a) :=
  fun x y =>
    match x, y with
    | .ok u, .ok v =>
      if h : u = v then isTrue (by rw [h]) else isFalse (by intro hh; injection hh; contradiction)
    | .error u, .error v =>
      if h : u = v then isTrue (by rw [h]) else isFalse (by intro hh; injection hh; contradiction)
    | .ok _, .error _ => isFalse (by intro hh; injection hh)
    | .error _, .ok _ => isFalse (by intro hh; injection hh)

/-- The `ref_length` property of a hit: `r_ei + 1 - r_st`. -/
def CigarHit.refLength (h : CigarHit) : Int := h.r_ei + 1 - h.r_st

/-- The `query_length` property of a hit: `q_ei + 1 - q_st`. -/
def CigarHit.queryLength (h : CigarHit) : Int := h.q_ei + 1 - h.q_st

/-- The two interval/length invariants enforced by `CigarHit.__post_init__`;
every constructed Python `CigarHit` satisfies them. -/
def WFHit (h : CigarHit) : Prop :=
  h.refLength = h.cigar.refLength ∧ h.queryLength = h.cigar.queryLength

instance : DecidablePred WFHit := fun h => by
  unfold WFHit
  infer_instance

/-- Model of the `CigarHit(...)` constructor together with its
`__post_init__` checks, which raise `CigarHitRangeError` when an interval
length disagrees with the corresponding CIGAR-derived length. -/
def mkCigarHit (c : Cigar) (rs re qs qe : Int) : Except PyErr CigarHit :=
  if re + 1 - rs = c.refLength then
    if qe + 1 - qs = c.queryLength then
      .ok ⟨c, rs, re, qs, qe⟩
    else .error .cigarHitRange
  else .error .cigarHitRange

/-- Inclusive interval overlap (`intervals_overlap` in `cigar_hit.py`):
`x[0] <= y[1] and x[1] >= y[0]`. -/
def intervalsOverlap (x y : Int × Int) : Bool :=
  decide (x.1 ≤ y.2) && decide (y.1 ≤ x.2)

def CigarHit.overlapsInQuery (a b : CigarHit) : Bool :=
  intervalsOverlap (a.q_st, a.q_ei) (b.q_st, b.q_ei)

def CigarHit.overlapsInReference (a b : CigarHit) : Bool :=
  intervalsOverlap (a.r_st, a.r_ei) (b.r_st, b.r_ei)

def CigarHit.touchesInQuery (a b : CigarHit) : Bool := decide (a.q_ei + 1 = b.q_st)

def CigarHit.touchesInReference (a b : CigarHit) : Bool := decide (a.r_ei + 1 = b.r_st)

/-- Positioned concatenation, `CigarHit.__add__`: requires the hits to touch
in both query and reference, else raises `CigarConnectError`; the result
concatenates the CIGARs and spans both intervals. -/
def hitAdd (a b : CigarHit) : Except PyErr CigarHit :=
  if a.touchesInQuery b && a.touchesInReference b then
    mkCigarHit (Cigar.add a.cigar b.cigar) a.r_st b.r_ei a.q_st b.q_ei
  else .error .cigarConnect

/-- Model of `Cigar.coerce` applied to a raw list of `(count, op)` tuples:
`Cigar(obj)` runs `Cigar.normalize`, whose validation raises
`InvalidOperationError` as soon as it reaches an item with a negative count
(the `isinstance` checks of the Python code are vacuous in this typed
embedding).  When every count is non-negative the result is the normalized
CIGAR of the `Nat`-valued data. -/
def cigarCoerceList (l : List (Int × CigarActions)) : Except PyErr Cigar :=
  if l.all (fun p => 0 ≤ p.1) then
    .ok (Cigar.ofList (l.map fun p => (p.1.toNat, p.2)))
  else .error .invalidOperation

/-- `CigarHit.from_default_alignment`: a filler hit made of
`(re - rs + 1)` deletions followed by `(qe - qs + 1)` insertions. -/
def fromDefaultAlignment (rs re qs qe : Int) : Except PyErr CigarHit :=
  let refLength := re - rs + 1
  let queryLength := qe - qs + 1
  (cigarCoerceList [(refLength, DELETE), (queryLength, INSERT)]).bind fun cigar =>
    mkCigarHit cigar rs re qs qe

/-- `CigarHit.connect`: rejects overlapping hits, then inserts the default
filler between the two hits and concatenates. -/
def hitConnect (a b : CigarHit) : Except PyErr CigarHit :=
  if a.overlapsInQuery b || a.overlapsInReference b then .error .cigarConnect
  else
    (fromDefaultAlignment (a.r_ei + 1) (b.r_st - 1) (a.q_ei + 1) (b.q_st - 1)).bind
      fun filler => (hitAdd a filler).bind fun s => hitAdd s b

/-- The exception classes that `src/aligntools/exceptions.py` defines.
Notably, `EmptyCigarHitListError` is not among them (it exists only in the
legacy `libexceptions.py`, which `cigar_hit.py` does not import). -/
def exceptionsModuleClasses : List String :=
  ["CigarError", "CoersionError", "ParseError", "MSALengthError",
   "InvalidOperationError", "CigarHitRangeError", "CigarConnectError",
   "CigarAddError", "CigarCutError"]

/-- The effect of executing `raise ex.EmptyCigarHitListError(...)` in
`connect_cigar_hits` where `ex` is `aligntools.exceptions`: if the module
defined the class the corresponding error kind would be raised; since it
does not, the attribute lookup itself fails with Python's
`AttributeError`. -/
def raiseEmptyCigarHitListError : PyErr :=
  if "EmptyCigarHitListError" ∈ exceptionsModuleClasses then .emptyCigarHitList
  else .attributeError "EmptyCigarHitListError"

/-- Stable insertion of a hit into a list sorted by `r_st` (a hit goes after
all already-placed hits with an equal or smaller key). -/
def orderedInsertRst (h : CigarHit) : List CigarHit → List CigarHit
  | [] => [h]
  | x :: xs => if h.r_st < x.r_st then h :: x :: xs else x :: orderedInsertRst h xs

/-- Model of `sorted(parts, key=lambda p: p.r_st)`: Python's sort is stable,
and stable sorting by a key is computed by stable insertion sort. -/
def sortByRst (l : List CigarHit) : List CigarHit := l.foldr orderedInsertRst []

/-- A group of hits as built by `connect_cigar_hits`: its first member plus
the rest in order (groups are never empty in the source, so this shape is
exact). -/
def groupLast (g : CigarHit × List CigarHit) : CigarHit := g.2.getLast?.getD g.1

def groupMembers (g : CigarHit × List CigarHit) : List CigarHit := g.1 :: g.2

/-- The `find_group` helper of `connect_cigar_hits`: append the hit to the
first group whose last member ends strictly before it in the query and none
of whose members overlaps it in the reference; otherwise start a new group
at the end. -/
def findGroup : List (CigarHit × List CigarHit) → CigarHit →
    List (CigarHit × List CigarHit)
  | [], phit => [(phit, [])]
  | g :: rest, phit =>
    if (groupLast g).q_ei < phit.q_st &&
        (groupMembers g).all (fun o => !(phit.overlapsInReference o)) then
      (g.1, g.2 ++ [phit]) :: rest
    else g :: findGroup rest phit

/-- The hit combinator `connect_cigar_hits` of `cigar_hit.py` (exported as
`connect_nonoverlapping_cigar_hits`): reject the empty list, drop hits that
overlap an earlier accepted hit in the query, sort by `r_st`, partition into
groups, and fold each group with `connect`. -/
def connectCigarHits (cigarHits : List CigarHit) : Except PyErr (List CigarHit) :=
  if cigarHits.length = 0 then .error raiseEmptyCigarHitListError
  else
    let accumulator := cigarHits.foldl
      (fun acc hit =>
        if acc.any (fun earlier => earlier.overlapsInQuery hit) then acc
        else acc ++ [hit]) []
    let sortedParts := sortByRst accumulator
    let sortedGroups := sortedParts.foldl findGroup []
    sortedGroups.mapM fun g => g.2.foldlM hitConnect g.1

/-- C3: the `exceptions` module of the package defines no
`EmptyCigarHitListError`, so `connect_cigar_hits([])` escapes with Python's
`AttributeError` rather than the `EmptyCigarHitList` error kind that the
code intends and the specification documents. -/
theorem connectCigarHits_nil_attributeError :
    connectCigarHits [] = .error (PyErr.attributeError "EmptyCigarHitListError") ∧
    PyErr.attributeError "EmptyCigarHitListError" ≠ PyErr.emptyCigarHitList := by
  exact ⟨by decide, by decide⟩

/-- C4 (amended): connecting hits that do not overlap on either axis but are
out of order on some axis fails with the `InvalidOperation` error kind (the
negative filler count is rejected by `Cigar.normalize` before the filler
hit's interval invariant is ever checked). -/
theorem hitConnect_out_of_order (a b : CigarHit)
    (hq : a.overlapsInQuery b = false)
    (hr : a.overlapsInReference b = false)
    (hoo : b.r_st < a.r_ei + 1 ∨ b.q_st < a.q_ei + 1) :
    hitConnect a b = .error .invalidOperation := by
  rw [hitConnect, hq, hr]
  simp only [Bool.or_self, Bool.false_eq_true, if_false]
  rw [fromDefaultAlignment]
  have hneg : ¬((0 ≤ b.r_st - 1 - (a.r_ei + 1) + 1) ∧ (0 ≤ b.q_st - 1 - (a.q_ei + 1) + 1)) := by
    omega
  rw [cigarCoerceList]
  rw [if_neg (by simpa using hneg)]
  rfl

/-- C4 counterexample: two valid hits, non-overlapping on both axes and out
of order on both, for which `connect` raises `InvalidOperationError`, not
`CigarHitRange` as the claim states. -/
theorem hitConnect_out_of_order_not_range :
    let a : CigarHit := ⟨Cigar.ofList [(3, MATCH)], 5, 7, 1, 3⟩
    let b : CigarHit := ⟨Cigar.ofList [(3, MATCH)], 1, 3, 5, 7⟩
    WFHit a ∧ WFHit b ∧
    a.overlapsInQuery b = false ∧ a.overlapsInReference b = false ∧
    (b.r_st < a.r_ei + 1 ∨ b.q_st < a.q_ei + 1) ∧
    hitConnect a b ≠ .error .cigarHitRange := by
  refine ⟨by decide, by decide, by decide, by decide, by decide, by decide⟩

/-- C4 witness: the amended theorem applied at the counterexample's
inputs. -/
theorem hitConnect_out_of_order_witness :
    hitConnect ⟨Cigar.ofList [(3, MATCH)], 5, 7, 1, 3⟩
        ⟨Cigar.ofList [(3, MATCH)], 1, 3, 5, 7⟩ = .error .invalidOperation :=
  hitConnect_out_of_order _ _ (by decide) (by decide) (by decide)

/-- Adjustment of one Python slice bound for a list of length `n`: negative
bounds are offset by the length, and the result is clamped to `[0, n]`. -/
def pyBound (n : Nat) (a : Int) : Int :=
  if a < 0 then max ((n : Int) + a) 0 else min a n

/-- Python list slicing `l[a:b]`. -/
def pySlice {α : Type} (l : List α) (a b : Int) : List α :=
  (l.drop (pyBound l.length a).toNat).take (pyBound l.length b - pyBound l.length a).toNat

/-- `Cigar.slice_operations`: `Cigar([(1, op) for op in ...][start:end])`. -/
def Cigar.sliceOperations (c : Cigar) (a b : Int) : Cigar :=
  Cigar.ofList (pySlice (c.ops.map fun op => (1, op)) a b)

/-- The slice the C5 claim describes: the decoded stream restricted to
indices `[a, b)` where negative bounds behave as 0 and bounds above
`op_length` behave as `op_length`. -/
def claimSliceOps (c : Cigar) (a b : Int) : Cigar :=
  Cigar.ofList (((c.ops.drop (min (max a 0) (c.opLength : Int)).toNat).take
    (min (max b 0) (c.opLength : Int) - min (max a 0) (c.opLength : Int)).toNat).map
      fun op => (1, op))

theorem expand_map_singleton (l : List CigarActions) :
    expand (l.map fun op => (1, op)) = l := by
  induction l with
  | nil => rfl
  | cons a t ih => simp [expand] at ih ⊢; exact ih

theorem pySlice_map {α β : Type} (f : α → β) (l : List α) (a b : Int) :
    pySlice (l.map f) a b = (pySlice l a b).map f := by
  unfold pySlice
  rw [List.length_map, List.map_take, List.map_drop]

/-- C5 counterexample: on the CIGAR `2M1D`, `slice_operations(-1, 3)` keeps
only the final operation (`1D`, Python's from-the-end indexing), while the
claim's reading (negative bound behaves as 0) would keep everything. -/
theorem sliceOperations_neg_not_zero :
    (Cigar.ofList [(2, MATCH), (1, DELETE)]).sliceOperations (-1) 3 ≠
      claimSliceOps (Cigar.ofList [(2, MATCH), (1, DELETE)]) (-1) 3 := by
  decide

/-- C5 (amended): `slice_operations(a, b)` equals the claim's clamped
restriction applied to the Python-adjusted bounds, where a negative bound is
first offset by `op_length` (and only then clamped to `[0, op_length]`);
non-negative bounds saturate at `op_length` as claimed, and an empty clamped
range yields the empty Cigar. -/
theorem sliceOperations_eq_claimSlice (c : Cigar) (a b : Int) :
    c.sliceOperations a b =
      claimSliceOps c (if a < 0 then (c.opLength : Int) + a else a)
        (if b < 0 then (c.opLength : Int) + b else b) := by
  apply Cigar.ext_data
  show (Cigar.ofList (pySlice (c.ops.map fun op => (1, op)) a b)).data = _
  rw [Cigar.ofList_data, normalize_eq_canon, pySlice_map, expand_map_singleton]
  unfold claimSliceOps
  rw [Cigar.ofList_data, normalize_eq_canon, expand_map_singleton]
  have hlo : pyBound c.ops.length a
      = min (max (if a < 0 then (c.opLength : Int) + a else a) 0) (c.opLength : Int) := by
    show (if a < 0 then max ((c.ops.length : Int) + a) 0 else min a (c.ops.length : Int)) = _
    have hn : (c.opLength : Int) = (c.ops.length : Int) := rfl
    rw [hn]; by_cases ha : a < 0 <;> simp [ha] <;> omega
  have hhi : pyBound c.ops.length b
      = min (max (if b < 0 then (c.opLength : Int) + b else b) 0) (c.opLength : Int) := by
    show (if b < 0 then max ((c.ops.length : Int) + b) 0 else min b (c.ops.length : Int)) = _
    have hn : (c.opLength : Int) = (c.ops.length : Int) := rfl
    rw [hn]; by_cases hb : b < 0 <;> simp [hb] <;> omega
  unfold pySlice
  rw [hlo, hhi]

/-- An integer-to-integer mapping with domain/codomain supersets
(`int_dict.py`, class `IntDict`): the dict is kept as its insertion-ordered
association list (keys are unique), the sets as duplicate-free lists. -/
structure IntDict where
  entries : List (Int × Int)
  domain : List Int
  codomain : List Int
deriving DecidableEq

def IntDict.empty : IntDict := ⟨[], [], []⟩

/-- Python `d[k] = v` on a dict with unique keys: overwrite in place if the
key is present, else append. -/
def dictInsert (l : List (Int × Int)) (k v : Int) : List (Int × Int) :=
  if l.any (fun p => p.1 = k) then l.map fun p => if p.1 = k then (k, v) else p
  else l ++ [(k, v)]

/-- Python `s.add(x)` on a set modelled as a duplicate-free list. -/
def setAdd (s : List Int) (x : Int) : List Int := if x ∈ s then s else s ++ [x]

/-- `IntDict.extend`: record the mapping only when both sides are present;
add each present side to its superset. -/
def IntDict.extend (d : IntDict) (key value : Option Int) : IntDict :=
  { entries :=
      match key, value with
      | some k, some v => dictInsert d.entries k v
      | _, _ => d.entries
    domain := match key with | some k => setAdd d.domain k | none => d.domain
    codomain := match value with | some v => setAdd d.codomain v | none => d.codomain }

def intDictLeftMax (d : IntDict) (i : Int) : Option Int := leftMax d.entries i

def intDictRightMin (d : IntDict) (i : Int) : Option Int := rightMin d.entries i

/-- The lookup the C6 claim describes: the value stored at the largest key
that is at most `i` (rather than the largest value among those keys). -/
def claimLeftMax (d : IntDict) (i : Int) : Option Int :=
  match listMax? ((d.entries.filter fun p => p.1 ≤ i).map fun p => p.1) with
  | some k => dictGet d.entries k
  | none => none

/-- A two-entry mapping `{0: 5, 1: 2}` built via `extend`. -/
def c6dict : IntDict := (IntDict.empty.extend (some 0) (some 5)).extend (some 1) (some 2)

/-- C6 counterexample: on the non-monotone mapping `{0: 5, 1: 2}`,
`left_max(1)` returns `max(5, 2) = 5`, not the value `2` stored at the
maximum admissible key `1`. -/
theorem leftMax_not_value_at_max_key :
    intDictLeftMax c6dict 1 = some 5 ∧ claimLeftMax c6dict 1 = some 2 ∧
    intDictLeftMax c6dict 1 ≠ claimLeftMax c6dict 1 := by
  decide

/-- C6 (amended): `left_max(i)` returns the greatest VALUE among the entries
whose key is at most `i` (`none` when there is no such key), and
`right_min(i)` the least value among entries with key at least `i`; for a
monotone mapping this agrees with the value at the extremal key, but not in
general.  Both search the recorded mapping only: the `domain`/`codomain`
supersets never influence the result. -/
theorem leftMax_rightMin_value_extrema (d : IntDict) (i v : Int) :
    (intDictLeftMax d i = some v ↔
      (∃ p ∈ d.entries, p.1 ≤ i ∧ p.2 = v) ∧ ∀ p ∈ d.entries, p.1 ≤ i → p.2 ≤ v) ∧
    (intDictRightMin d i = some v ↔
      (∃ p ∈ d.entries, i ≤ p.1 ∧ p.2 = v) ∧ ∀ p ∈ d.entries, i ≤ p.1 → v ≤ p.2) ∧
    (∀ dom cod : List Int,
      intDictLeftMax (IntDict.mk d.entries dom cod) i = intDictLeftMax d i ∧
      intDictRightMin (IntDict.mk d.entries dom cod) i = intDictRightMin d i) := by
  refine ⟨?_, ?_, fun dom cod => ⟨rfl, rfl⟩⟩
  · rw [intDictLeftMax, leftMax, listMax?_eq_some_iff]
    constructor
    · rintro ⟨hv, hub⟩
      simp only [List.mem_map, List.mem_filter, decide_eq_true_eq] at hv hub
      obtain ⟨p, ⟨hp, hpi⟩, hpv⟩ := hv
      exact ⟨⟨p, hp, hpi, hpv⟩, fun q hq hqi => hub q.2 ⟨q, ⟨hq, hqi⟩, rfl⟩⟩
    · rintro ⟨⟨p, hp, hpi, hpv⟩, hub⟩
      simp only [List.mem_map, List.mem_filter, decide_eq_true_eq]
      exact ⟨⟨p, ⟨hp, hpi⟩, hpv⟩, fun x ⟨q, ⟨hq, hqi⟩, hqx⟩ => hqx ▸ hub q hq hqi⟩
  · rw [intDictRightMin, rightMin, listMin?_eq_some_iff]
    constructor
    · rintro ⟨hv, hlb⟩
      simp only [List.mem_map, List.mem_filter, decide_eq_true_eq] at hv hlb
      obtain ⟨p, ⟨hp, hpi⟩, hpv⟩ := hv
      exact ⟨⟨p, hp, hpi, hpv⟩, fun q hq hqi => hlb q.2 ⟨q, ⟨hq, hqi⟩, rfl⟩⟩
    · rintro ⟨⟨p, hp, hpi, hpv⟩, hlb⟩
      simp only [List.mem_map, List.mem_filter, decide_eq_true_eq]
      exact ⟨⟨p, ⟨hp, hpi⟩, hpv⟩, fun x ⟨q, ⟨hq, hqi⟩, hqx⟩ => hqx ▸ hlb q hq hqi⟩

/-- Modelled from the spec: `drop_overlapping_cigar_hits` is exported by
`aligntools/__init__.py` and exercised by the tests, but its definition is
not among the sources under `src/`.  Per the specification, one greedy step:
the candidate is dropped when its query interval overlaps an already-kept
hit of greater-or-equal quality; otherwise it is kept and every
previously-kept overlapping hit of strictly lower quality is removed. -/
def dropOverlappingStep (quality : CigarHit → Int) (kept : List CigarHit)
    (cand : CigarHit) : List CigarHit :=
  if kept.any (fun k => k.overlapsInQuery cand && decide (quality cand ≤ quality k)) then
    kept
  else
    (kept.filter fun k => !(k.overlapsInQuery cand && decide (quality k < quality cand)))
      ++ [cand]

/-- Modelled from the spec: `drop_overlapping_cigar_hits` processes the
candidates in the given input order, starting from no kept hits. -/
def dropOverlapping (hits : List CigarHit) (quality : CigarHit → Int) : List CigarHit :=
  hits.foldl (dropOverlappingStep quality) []

theorem dropOverlapping_foldl_sublist (quality : CigarHit → Int) :
    ∀ (l acc : List CigarHit),
      List.Sublist (l.foldl (dropOverlappingStep quality) acc) (acc ++ l) := by
  intro l
  induction l with
  | nil => intro acc; simp
  | cons h t ih =>
    intro acc
    rw [List.foldl_cons]
    refine List.Sublist.trans (ih (dropOverlappingStep quality acc h)) ?_
    rw [dropOverlappingStep]
    by_cases hc : acc.any
        (fun k => k.overlapsInQuery h && decide (quality h ≤ quality k)) = true
    · rw [if_pos hc]
      exact List.Sublist.append_left (List.sublist_cons_self h t) acc
    · rw [if_neg hc, List.append_assoc, List.singleton_append]
      exact List.Sublist.append (List.filter_sublist acc) (List.Sublist.refl (h :: t))

/-- C9: the spec-modelled greedy selection processes candidates in input
order via the step relation above (the recurrence), and the kept hits are
returned in the original input order (a sublist of the input, hence stable
with respect to ties). -/
theorem dropOverlapping_greedy (hits : List CigarHit) (quality : CigarHit → Int) :
    List.Sublist (dropOverlapping hits quality) hits ∧
    (∀ h : CigarHit, dropOverlapping (hits ++ [h]) quality =
      dropOverlappingStep quality (dropOverlapping hits quality) h) ∧
    dropOverlapping [] quality = [] := by
  refine ⟨?_, fun h => ?_, rfl⟩
  · have := dropOverlapping_foldl_sublist quality hits []
    simpa [dropOverlapping] using this
  · rw [dropOverlapping, dropOverlapping, List.foldl_append, List.foldl_cons, List.foldl_nil]

/-- `Cigar.from_msa` (`cigar.py`): rejects strings of different lengths with
`ParseError`, then walks the columns in lockstep; `('-', '-')` is skipped,
`('-', x)` yields an Insert, `(x, '-')` a Delete, and the final two source
branches (equal bases and differing bases) both yield a Match.  The
constructed `Cigar(operations)` coalesces adjacent equal operations. -/
def fromMsa (reference query : List Char) : Except PyErr Cigar :=
  if reference.length ≠ query.length then .error .parseError
  else
    .ok (Cigar.ofList ((List.zip reference query).filterMap fun rq =>
      if rq.1 = '-' ∧ rq.2 = '-' then none
      else if rq.1 = '-' then some (1, INSERT)
      else if rq.2 = '-' then some (1, DELETE)
      else if rq.1 = rq.2 then some (1, MATCH)
      else some (1, MATCH)))

/-- The per-column operation stream that the C8 claim describes. -/
def specColumns (reference query : List Char) : List CigarActions :=
  (List.zip reference query).filterMap fun rq =>
    if rq.1 = '-' ∧ rq.2 = '-' then none
    else if rq.1 = '-' then some INSERT
    else if rq.2 = '-' then some DELETE
    else some MATCH

theorem fromMsa_column_fn (rq : Char × Char) :
    (if rq.1 = '-' ∧ rq.2 = '-' then none
      else if rq.1 = '-' then some ((1 : Nat), INSERT)
      else if rq.2 = '-' then some (1, DELETE)
      else if rq.1 = rq.2 then some (1, MATCH)
      else some (1, MATCH)) =
    (if rq.1 = '-' ∧ rq.2 = '-' then none
      else if rq.1 = '-' then some INSERT
      else if rq.2 = '-' then some DELETE
      else some MATCH).map fun op => ((1 : Nat), op) := by
  by_cases h1 : rq.1 = '-' ∧ rq.2 = '-'
  · simp [h1]
  · by_cases h2 : rq.1 = '-'
    · have h3 : ¬rq.2 = '-' := fun hh => h1 ⟨h2, hh⟩
      simp [h1, h2, h3]
    · by_cases h3 : rq.2 = '-'
      · simp [h1, h2, h3]
      · by_cases h4 : rq.1 = rq.2 <;> simp [h1, h2, h3, h4]

/-- C8: `from_msa` raises `ParseError` exactly when the two strings differ
in length; on equal-length strings it succeeds with the CIGAR whose decoded
operation stream is the claimed per-column stream, in canonically coalesced
form; and that stream never contains `SEQ_MATCH` or `MISMATCH` (every
emitted operation is a plain Match, Insert or Delete). -/
theorem fromMsa_spec (reference query : List Char) :
    (reference.length ≠ query.length →
      fromMsa reference query = .error .parseError) ∧
    (reference.length = query.length →
      ∃ c, fromMsa reference query = .ok c ∧
        c.ops = specColumns reference query ∧ IsNormal c.data) ∧
    (∀ a ∈ specColumns reference query, a = MATCH ∨ a = INSERT ∨ a = DELETE) := by
  refine ⟨fun hne => by rw [fromMsa, if_pos hne], fun heq => ?_, fun a ha => ?_⟩
  · refine ⟨_, by rw [fromMsa, if_neg (by omega)], ?_, ?_⟩
    · rw [Cigar.ops_ofList]
      have hcols : ((List.zip reference query).filterMap fun rq =>
          if rq.1 = '-' ∧ rq.2 = '-' then none
          else if rq.1 = '-' then some ((1 : Nat), INSERT)
          else if rq.2 = '-' then some (1, DELETE)
          else if rq.1 = rq.2 then some (1, MATCH)
          else some (1, MATCH)) =
          (specColumns reference query).map fun op => ((1 : Nat), op) := by
        rw [specColumns, List.map_filterMap]
        exact congrArg (fun f => List.filterMap f (reference.zip query))
          (funext fromMsa_column_fn)
      rw [hcols, expand_map_singleton]
    · exact (Cigar.ofList _).wf
  · rw [specColumns] at ha
    rcases List.mem_filterMap.mp ha with ⟨rq, _, hrq⟩
    by_cases h1 : rq.1 = '-' ∧ rq.2 = '-'
    · rw [if_pos h1] at hrq
      exact absurd hrq (by simp)
    · rw [if_neg h1] at hrq
      by_cases h2 : rq.1 = '-'
      · rw [if_pos h2] at hrq
        exact Or.inr (Or.inl (Option.some_inj.mp hrq).symm)
      · rw [if_neg h2] at hrq
        by_cases h3 : rq.2 = '-'
        · rw [if_pos h3] at hrq
          exact Or.inr (Or.inr (Option.some_inj.mp hrq).symm)
        · rw [if_neg h3] at hrq
          exact Or.inl (Option.some_inj.mp hrq).symm

/-- C8 witness: the theorem applied to a mismatched-length pair and to the
alignment ("A-TG", "ACT-"). -/
theorem fromMsa_spec_witness :
    fromMsa ['A'] ['A', 'C'] = .error .parseError ∧
    (∃ c, fromMsa ['A', '-', 'T', 'G'] ['A', 'C', 'T', '-'] = .ok c ∧
      c.ops = specColumns ['A', '-', 'T', 'G'] ['A', 'C', 'T', '-'] ∧
      IsNormal c.data) :=
  ⟨(fromMsa_spec ['A'] ['A', 'C']).1 (by decide),
   (fromMsa_spec ['A', '-', 'T', 'G'] ['A', 'C', 'T', '-']).2.1 (by decide)⟩

/-- Hit-level `ref_to_query` mapping:
`self.cigar.coordinate_mapping.translate(self.r_st, self.q_st)` shifts the
reference keys by `r_st` and the query values by `q_st`, preserving the
association order (`IntDict.translate`). -/
def CigarHit.refToQuery (h : CigarHit) : List (Int × Int) :=
  h.cigar.refToQuery.map fun p => (p.1 + h.r_st, p.2 + h.q_st)

/-- Hit-level `query_to_ref` mapping. -/
def CigarHit.queryToRef (h : CigarHit) : List (Int × Int) :=
  h.cigar.queryToRef.map fun p => (p.1 + h.q_st, p.2 + h.r_st)

/-- Hit-level `ref_to_op` mapping (operation indices are not shifted). -/
def CigarHit.refToOp (h : CigarHit) : List (Int × Int) :=
  h.cigar.refToOp.map fun p => (p.1 + h.r_st, p.2)

/-- Hit-level `query_to_op` mapping. -/
def CigarHit.queryToOp (h : CigarHit) : List (Int × Int) :=
  h.cigar.queryToOp.map fun p => (p.1 + h.q_st, p.2)

theorem mem_refToOpL (l : List OpInfo) (p : Int × Int) :
    p ∈ refToOpL l ↔ ∃ o ∈ l, o.refPtr = some p.1 ∧ o.idx = p.2 := by
  rw [refToOpL, List.mem_filterMap]
  constructor
  · rintro ⟨o, ho, hp⟩
    rcases hr : o.refPtr with _ | rv
    · rw [hr] at hp; exact absurd hp (by simp)
    · rw [hr] at hp
      simp only [Option.map_some', Option.some_inj] at hp
      exact ⟨o, ho, by rw [hr, ← hp], by rw [← hp]⟩
  · rintro ⟨o, ho, h1, h2⟩
    exact ⟨o, ho, by rw [h1, Option.map_some', h2]⟩

theorem eq_num_of_den_one {q : ℚ} (h : q.den = 1) : q = (q.num : ℚ) :=
  (Rat.coe_int_num_of_den_eq_one h).symm

/-- An operation consuming both axes (a `MATCH/SEQ_MATCH/MISMATCH`). -/
def bothOp (a : CigarActions) : Bool := consumesRef a && consumesQuery a

/-- Comparison `i >= min_op` where `min_op` may be Python's `float("inf")`
(modelled as `none`): the comparison with infinity is always false. -/
def geOptBound (mo : Option Int) (i : Int) : Bool :=
  match mo with
  | some m => decide (m ≤ i)
  | none => false

/-- Comparison `i <= max_op` where `max_op` may be `float("-inf")`. -/
def leOptBound (mo : Option Int) (i : Int) : Bool :=
  match mo with
  | some m => decide (i ≤ m)
  | none => false

/-- The `min_op` computed by `Cigar.lstrip_query`: the operation index
(via `ref_to_op.get`) of the smallest key of `ref_to_query`. -/
def lstripQueryMinOp (c : Cigar) : Option Int :=
  match listMin? (c.refToQuery.map fun p => p.1) with
  | none => none
  | some r => dictGet c.refToOp r

/-- The `max_op` computed by `Cigar.rstrip_query`. -/
def rstripQueryMaxOp (c : Cigar) : Option Int :=
  match listMax? (c.refToQuery.map fun p => p.1) with
  | none => none
  | some r => dictGet c.refToOp r

/-- The `min_op` computed by `Cigar.lstrip_reference`. -/
def lstripReferenceMinOp (c : Cigar) : Option Int :=
  match listMin? (c.queryToRef.map fun p => p.1) with
  | none => none
  | some q => dictGet c.queryToOp q

/-- The `max_op` computed by `Cigar.rstrip_reference`. -/
def rstripReferenceMaxOp (c : Cigar) : Option Int :=
  match listMax? (c.queryToRef.map fun p => p.1) with
  | none => none
  | some q => dictGet c.queryToOp q

/-- `Cigar.lstrip_query`: keep the operations that either do not consume
the query or whose index is at least `min_op`. -/
def Cigar.lstripQuery (c : Cigar) : Cigar :=
  Cigar.ofList (c.opsPtrs.filterMap fun o =>
    if o.qPtr.isNone || geOptBound (lstripQueryMinOp c) o.idx then some (1, o.op)
    else none)

/-- `Cigar.rstrip_query`. -/
def Cigar.rstripQuery (c : Cigar) : Cigar :=
  Cigar.ofList (c.opsPtrs.filterMap fun o =>
    if o.qPtr.isNone || leOptBound (rstripQueryMaxOp c) o.idx then some (1, o.op)
    else none)

/-- `Cigar.lstrip_reference`. -/
def Cigar.lstripReference (c : Cigar) : Cigar :=
  Cigar.ofList (c.opsPtrs.filterMap fun o =>
    if o.refPtr.isNone || geOptBound (lstripReferenceMinOp c) o.idx then some (1, o.op)
    else none)

/-- `Cigar.rstrip_reference`. -/
def Cigar.rstripReference (c : Cigar) : Cigar :=
  Cigar.ofList (c.opsPtrs.filterMap fun o =>
    if o.refPtr.isNone || leOptBound (rstripReferenceMaxOp c) o.idx then some (1, o.op)
    else none)

/-- `CigarHit.lstrip_query`: strip the CIGAR, then re-derive the interval
towards the right endpoints (the constructor's checks hold by
construction). -/
def CigarHit.lstripQuery (h : CigarHit) : CigarHit :=
  ⟨h.cigar.lstripQuery, h.r_ei - h.cigar.lstripQuery.refLength + 1, h.r_ei,
    h.q_ei - h.cigar.lstripQuery.queryLength + 1, h.q_ei⟩

/-- `CigarHit.rstrip_query`. -/
def CigarHit.rstripQuery (h : CigarHit) : CigarHit :=
  ⟨h.cigar.rstripQuery, h.r_st, h.r_st + h.cigar.rstripQuery.refLength - 1,
    h.q_st, h.q_st + h.cigar.rstripQuery.queryLength - 1⟩

/-- `CigarHit.lstrip_reference`. -/
def CigarHit.lstripReference (h : CigarHit) : CigarHit :=
  ⟨h.cigar.lstripReference, h.r_ei - h.cigar.lstripReference.refLength + 1, h.r_ei,
    h.q_ei - h.cigar.lstripReference.queryLength + 1, h.q_ei⟩

/-- `CigarHit.rstrip_reference`. -/
def CigarHit.rstripReference (h : CigarHit) : CigarHit :=
  ⟨h.cigar.rstripReference, h.r_st, h.r_st + h.cigar.rstripReference.refLength - 1,
    h.q_st, h.q_st + h.cigar.rstripReference.queryLength - 1⟩

theorem exists_first_both {l : List CigarActions} (hex : ∃ a ∈ l, bothOp a = true) :
    ∃ pre m post, l = pre ++ m :: post ∧ bothOp m = true ∧
      ∀ a ∈ pre, bothOp a = false := by
  induction l with
  | nil => simp at hex
  | cons a t ih =>
    by_cases ha : bothOp a = true
    · exact ⟨[], a, t, rfl, ha, by simp⟩
    · have hext : ∃ x ∈ t, bothOp x = true := by
        rcases hex with ⟨x, hx, hbx⟩
        rcases List.mem_cons.mp hx with rfl | hx
        · exact absurd hbx ha
        · exact ⟨x, hx, hbx⟩
      obtain ⟨pre, m, post, hl, hm, hpre⟩ := ih hext
      refine ⟨a :: pre, m, post, by rw [hl]; rfl, hm, ?_⟩
      intro x hx
      rcases List.mem_cons.mp hx with rfl | hx
      · simpa using ha
      · exact hpre x hx

theorem exists_last_both {l : List CigarActions} (hex : ∃ a ∈ l, bothOp a = true) :
    ∃ pre m post, l = pre ++ m :: post ∧ bothOp m = true ∧
      ∀ a ∈ post, bothOp a = false := by
  induction l with
  | nil => simp at hex
  | cons a t ih =>
    by_cases hext : ∃ x ∈ t, bothOp x = true
    · obtain ⟨pre, m, post, hl, hm, hpost⟩ := ih hext
      exact ⟨a :: pre, m, post, by rw [hl]; rfl, hm, hpost⟩
    · have ha : bothOp a = true := by
        rcases hex with ⟨x, hx, hbx⟩
        rcases List.mem_cons.mp hx with rfl | hx
        · exact hbx
        · exact absurd ⟨x, hx, hbx⟩ hext
      refine ⟨[], a, t, rfl, ha, ?_⟩
      intro x hx
      by_contra hbx
      exact hext ⟨x, hx, by simpa using hbx⟩

theorem refToQueryL_annotate_of_no_both (xs : List CigarActions)
    (h : ∀ a ∈ xs, bothOp a = false) (i r q : Int) :
    refToQueryL (annotate xs i r q) = [] := by
  induction xs generalizing i r q with
  | nil => rfl
  | cons a t ih =>
    have ha : (consumesRef a && consumesQuery a) = false := h a (List.mem_cons_self _ _)
    have ht : ∀ x ∈ t, bothOp x = false := fun x hx => h x (List.mem_cons_of_mem _ hx)
    rcases hcr : consumesRef a <;> rcases hcq : consumesQuery a <;>
      rw [hcr, hcq] at ha <;>
      simp only [annotate, hcr, hcq, Bool.false_and, Bool.true_and, if_true, if_false,
        Bool.false_eq_true, refToQueryL, List.filterMap_cons] <;>
      first
        | exact ih ht _ _ _
        | simp at ha

theorem queryToRefL_annotate_of_no_both (xs : List CigarActions)
    (h : ∀ a ∈ xs, bothOp a = false) (i r q : Int) :
    queryToRefL (annotate xs i r q) = [] := by
  induction xs generalizing i r q with
  | nil => rfl
  | cons a t ih =>
    have ha : (consumesRef a && consumesQuery a) = false := h a (List.mem_cons_self _ _)
    have ht : ∀ x ∈ t, bothOp x = false := fun x hx => h x (List.mem_cons_of_mem _ hx)
    rcases hcr : consumesRef a <;> rcases hcq : consumesQuery a <;>
      rw [hcr, hcq] at ha <;>
      simp only [annotate, hcr, hcq, Bool.false_and, Bool.true_and, if_true, if_false,
        Bool.false_eq_true, queryToRefL, List.filterMap_cons] <;>
      first
        | exact ih ht _ _ _
        | simp at ha

theorem refToQueryL_annotate_shift (xs : List CigarActions) (i r q : Int) :
    refToQueryL (annotate xs i r q) =
      (refToQueryL (annotate xs 0 0 0)).map fun p => (p.1 + r, p.2 + q) := by
  rw [annotate_shift xs i r q, refToQueryL, List.filterMap_map, refToQueryL,
    List.map_filterMap]
  refine congrArg (fun f => List.filterMap f (annotate xs 0 0 0)) (funext fun o => ?_)
  rw [Function.comp_apply, shiftInfo]
  rcases o.refPtr with _ | rv <;> rcases o.qPtr with _ | qv <;> simp

theorem dictGet_append_cons (A : List (Int × Int)) (k v : Int) (B : List (Int × Int))
    (h : ∀ p ∈ A, p.1 ≠ k) : dictGet (A ++ (k, v) :: B) k = some v := by
  induction A with
  | nil => simp [dictGet, List.find?_cons]
  | cons a A ih =>
    have ha : (decide (a.1 = k)) = false := by
      simpa using h a (List.mem_cons_self _ _)
    rw [List.cons_append, dictGet, List.find?_cons, ha]
    exact ih fun p hp => h p (List.mem_cons_of_mem _ hp)

theorem listMin?_cons_of_le (x : Int) (xs : List Int) (h : ∀ y ∈ xs, x ≤ y) :
    listMin? (x :: xs) = some x := by
  rw [listMin?_eq_some_iff]
  refine ⟨List.mem_cons_self _ _, fun y hy => ?_⟩
  rcases List.mem_cons.mp hy with rfl | hy
  · exact le_refl _
  · exact h y hy

theorem listMax?_append_singleton (ks : List Int) (x : Int) (h : ∀ y ∈ ks, y ≤ x) :
    listMax? (ks ++ [x]) = some x := by
  rw [listMax?_eq_some_iff]
  refine ⟨List.mem_append.mpr (Or.inr (List.mem_singleton_self _)), fun y hy => ?_⟩
  rcases List.mem_append.mp hy with hy | hy
  · exact h y hy
  · rw [List.mem_singleton.mp hy]

theorem mem_refToQueryL (l : List OpInfo) (p : Int × Int) :
    p ∈ refToQueryL l ↔ ∃ o ∈ l, o.refPtr = some p.1 ∧ o.qPtr = some p.2 := by
  rw [refToQueryL, List.mem_filterMap]
  constructor
  · rintro ⟨o, ho, hp⟩
    rcases hr : o.refPtr with _ | rv <;> rcases hq : o.qPtr with _ | qv <;>
      rw [hr, hq] at hp
    · exact absurd hp (by simp)
    · exact absurd hp (by simp)
    · exact absurd hp (by simp)
    · simp only [Option.some_inj] at hp
      exact ⟨o, ho, by rw [hr, ← hp], by rw [hq, ← hp]⟩
  · rintro ⟨o, ho, h1, h2⟩
    exact ⟨o, ho, by rw [h1, h2]⟩

/-- On a segment whose operation indices all fail the index test, the strip
keeps exactly the operations with no query pointer. -/
theorem stripSeg_skip (xs : List CigarActions) (f : Int → Bool) :
    ∀ i r q : Int, (∀ j : Int, i ≤ j → j < i + xs.length → f j = false) →
      ((annotate xs i r q).filterMap fun o =>
          if o.qPtr.isNone || f o.idx then some ((1 : Nat), o.op) else none) =
        (xs.filter fun a => !consumesQuery a).map fun a => ((1 : Nat), a) := by
  induction xs with
  | nil => intro i r q _; rfl
  | cons a t ih =>
    intro i r q h
    have hfi : f i = false :=
      h i (le_refl i) (by simp only [List.length_cons]; push_cast; omega)
    rcases hcr : consumesRef a <;> rcases hcq : consumesQuery a <;>
      simp only [annotate, hcr, hcq, Bool.false_and, Bool.true_and, if_true, if_false,
        Bool.false_eq_true, List.filterMap_cons, List.filter_cons, Bool.not_false,
        Bool.not_true, List.map_cons, hfi, Option.isNone_none, Option.isNone_some,
        Bool.true_or, Bool.false_or, Bool.or_false] <;>
      rw [ih _ _ _ (fun j hj1 hj2 => h j (by omega) (by
        simp only [List.length_cons]
        push_cast at hj2 ⊢
        omega))]

/-- On a segment whose operation indices all pass the index test, the strip
keeps every operation. -/
theorem stripSeg_keep (xs : List CigarActions) (f : Int → Bool) :
    ∀ i r q : Int, (∀ j : Int, i ≤ j → j < i + xs.length → f j = true) →
      ((annotate xs i r q).filterMap fun o =>
          if o.qPtr.isNone || f o.idx then some ((1 : Nat), o.op) else none) =
        xs.map fun a => ((1 : Nat), a) := by
  induction xs with
  | nil => intro i r q _; rfl
  | cons a t ih =>
    intro i r q h
    have hfi : f i = true :=
      h i (le_refl i) (by simp only [List.length_cons]; push_cast; omega)
    rcases hcr : consumesRef a <;> rcases hcq : consumesQuery a <;>
      simp only [annotate, hcr, hcq, Bool.false_and, Bool.true_and, if_true, if_false,
        Bool.false_eq_true, List.filterMap_cons, List.map_cons, hfi, Option.isNone_none,
        Option.isNone_some, Bool.true_or, Bool.false_or, Bool.or_true, if_true] <;>
      rw [ih _ _ _ (fun j hj1 hj2 => h j (by omega) (by
        simp only [List.length_cons]
        push_cast at hj2 ⊢
        omega))]

theorem countQuery_filter_not (l : List CigarActions) :
    countQuery (l.filter fun a => !consumesQuery a) = 0 := by
  rw [countQuery, List.countP_eq_zero]
  intro a ha
  have := (List.mem_filter.mp ha).2
  simp at this
  simp [this]

theorem countRef_filter_of_no_both (l : List CigarActions)
    (h : ∀ a ∈ l, bothOp a = false) :
    countRef (l.filter fun a => !consumesQuery a) = countRef l := by
  induction l with
  | nil => rfl
  | cons a t ih =>
    have ha : bothOp a = false := h a (List.mem_cons_self _ _)
    have ht := ih fun x hx => h x (List.mem_cons_of_mem _ hx)
    rw [bothOp] at ha
    rcases hcq : consumesQuery a
    · rw [List.filter_cons, if_pos (by simp [hcq])]
      rw [countRef_cons, countRef_cons, ht]
    · have hcr : consumesRef a = false := by
        rcases hcr : consumesRef a
        · rfl
        · rw [hcr, hcq] at ha
          simp at ha
      rw [List.filter_cons, if_neg (by simp [hcq])]
      rw [countRef_cons, ht, hcr]
      simp

theorem no_both_of_filter_not_query (l : List CigarActions) :
    ∀ a ∈ l.filter fun a => !consumesQuery a, bothOp a = false := by
  intro a ha
  have := (List.mem_filter.mp ha).2
  rw [bothOp]
  rcases hq : consumesQuery a
  · simp
  · rw [hq] at this
    simp at this

theorem annotate_cons_both (m : CigarActions) (post : List CigarActions)
    (i r q : Int) (hm : bothOp m = true) :
    annotate (m :: post) i r q =
      ⟨i, m, some r, some q⟩ :: annotate post (i + 1) (r + 1) (q + 1) := by
  rw [bothOp] at hm
  simp [annotate, hm]

theorem lstripQuery_ops_of_no_both (c : Cigar)
    (h : ∀ a ∈ c.ops, bothOp a = false) :
    c.lstripQuery.ops = c.ops.filter fun a => !consumesQuery a := by
  have hRQ : c.refToQuery = [] := refToQueryL_annotate_of_no_both c.ops h 0 0 0
  have hmin : lstripQueryMinOp c = none := by
    rw [lstripQueryMinOp, hRQ]
    rfl
  rw [Cigar.lstripQuery, Cigar.ops_ofList, hmin, Cigar.opsPtrs,
    stripSeg_skip c.ops (geOptBound none) 0 0 0 (fun j _ _ => rfl),
    expand_map_singleton]

theorem refToQueryL_append (l1 l2 : List OpInfo) :
    refToQueryL (l1 ++ l2) = refToQueryL l1 ++ refToQueryL l2 := by
  rw [refToQueryL, refToQueryL, refToQueryL, List.filterMap_append]

theorem refToOpL_append (l1 l2 : List OpInfo) :
    refToOpL (l1 ++ l2) = refToOpL l1 ++ refToOpL l2 := by
  rw [refToOpL, refToOpL, refToOpL, List.filterMap_append]

theorem refToQueryL_cons_both (i r q : Int) (m : CigarActions) (l : List OpInfo) :
    refToQueryL (⟨i, m, some r, some q⟩ :: l) = (r, q) :: refToQueryL l := by
  rw [refToQueryL, refToQueryL, List.filterMap_cons]

theorem refToOpL_cons_both (i r q : Int) (m : CigarActions) (l : List OpInfo) :
    refToOpL (⟨i, m, some r, some q⟩ :: l) = (r, i) :: refToOpL l := by
  rw [refToOpL, refToOpL, List.filterMap_cons]
  rfl

theorem refToQuery_decomp (c : Cigar) {pre post : List CigarActions}
    {m : CigarActions} (hl : c.ops = pre ++ m :: post) (hm : bothOp m = true)
    (hpre : ∀ a ∈ pre, bothOp a = false) :
    c.refToQuery = ((countRef pre : Int), (countQuery pre : Int)) ::
      refToQueryL (annotate post ((pre.length : Int) + 1) ((countRef pre : Int) + 1)
        ((countQuery pre : Int) + 1)) := by
  rw [Cigar.refToQuery, Cigar.opsPtrs, hl, annotate_append, refToQueryL_append,
    refToQueryL_annotate_of_no_both pre hpre 0 0 0, List.nil_append,
    annotate_cons_both m post _ _ _ hm, refToQueryL_cons_both]
  simp only [zero_add]

theorem refToOp_decomp (c : Cigar) {pre post : List CigarActions}
    {m : CigarActions} (hl : c.ops = pre ++ m :: post) (hm : bothOp m = true) :
    c.refToOp = refToOpL (annotate pre 0 0 0) ++
      ((countRef pre : Int), (pre.length : Int)) ::
        refToOpL (annotate post ((pre.length : Int) + 1) ((countRef pre : Int) + 1)
          ((countQuery pre : Int) + 1)) := by
  rw [Cigar.refToOp, Cigar.opsPtrs, hl, annotate_append, refToOpL_append,
    annotate_cons_both m post _ _ _ hm, refToOpL_cons_both]
  simp only [zero_add]

theorem lstripQueryMinOp_decomp (c : Cigar) {pre post : List CigarActions}
    {m : CigarActions} (hl : c.ops = pre ++ m :: post) (hm : bothOp m = true)
    (hpre : ∀ a ∈ pre, bothOp a = false) :
    lstripQueryMinOp c = some (pre.length : Int) := by
  rw [lstripQueryMinOp, refToQuery_decomp c hl hm hpre, List.map_cons]
  rw [listMin?_cons_of_le]
  · rw [refToOp_decomp c hl hm]
    apply dictGet_append_cons
    intro p hp
    rcases (mem_refToOpL _ _).mp hp with ⟨o, ho, hptr, _⟩
    have := (annotate_refPtr_bounds pre 0 0 0 o ho p.1 hptr).2
    omega
  · intro y hy
    rcases List.mem_map.mp hy with ⟨p, hp, hpy⟩
    rcases (mem_refToQueryL _ _).mp hp with ⟨o, ho, hptr, _⟩
    have := (annotate_refPtr_bounds post _ _ _ o ho p.1 hptr).1
    omega

theorem lstripQuery_ops_decomp (c : Cigar) {pre post : List CigarActions}
    {m : CigarActions} (hl : c.ops = pre ++ m :: post) (hm : bothOp m = true)
    (hpre : ∀ a ∈ pre, bothOp a = false) :
    c.lstripQuery.ops = (pre.filter fun a => !consumesQuery a) ++ m :: post := by
  rw [Cigar.lstripQuery, Cigar.ops_ofList, lstripQueryMinOp_decomp c hl hm hpre,
    Cigar.opsPtrs, hl, annotate_append, List.filterMap_append]
  rw [stripSeg_skip pre (geOptBound (some (pre.length : Int))) 0 0 0 (by
    intro j _ h2
    rw [geOptBound]
    simp only [decide_eq_false_iff_not]
    omega)]
  rw [stripSeg_keep (m :: post) (geOptBound (some (pre.length : Int))) _ _ _ (by
    intro j h1 _
    rw [geOptBound]
    simp only [decide_eq_true_eq]
    omega)]
  rw [expand_append, expand_map_singleton, expand_map_singleton]

theorem lstripQuery_refToQuery (h : CigarHit) (hwf : WFHit h) :
    (CigarHit.lstripQuery h).refToQuery = h.refToQuery := by
  obtain ⟨hwr, hwq⟩ := hwf
  rw [CigarHit.refLength] at hwr
  rw [CigarHit.queryLength] at hwq
  by_cases hex : ∃ a ∈ h.cigar.ops, bothOp a = true
  · obtain ⟨pre, m, post, hl, hm, hpre⟩ := exists_first_both hex
    have hops : h.cigar.lstripQuery.ops =
        (pre.filter fun a => !consumesQuery a) ++ m :: post :=
      lstripQuery_ops_decomp h.cigar hl hm hpre
    have hpreF : ∀ a ∈ pre.filter fun a => !consumesQuery a, bothOp a = false :=
      fun a ha => hpre a (List.mem_filter.mp ha).1
    have horig : h.cigar.refToQuery =
        ((countRef pre : Int), (countQuery pre : Int)) ::
          ((refToQueryL (annotate post 0 0 0)).map fun p =>
            (p.1 + ((countRef pre : Int) + 1), p.2 + ((countQuery pre : Int) + 1))) := by
      rw [refToQuery_decomp h.cigar hl hm hpre, refToQueryL_annotate_shift]
    have hstr : h.cigar.lstripQuery.refToQuery =
        ((countRef pre : Int), (0 : Int)) ::
          ((refToQueryL (annotate post 0 0 0)).map fun p =>
            (p.1 + ((countRef pre : Int) + 1), p.2 + ((0 : Int) + 1))) := by
      rw [refToQuery_decomp h.cigar.lstripQuery hops hm hpreF,
        refToQueryL_annotate_shift, countRef_filter_of_no_both pre hpre,
        countQuery_filter_not]
      norm_num
    have hlen_r : h.cigar.lstripQuery.refLength = h.cigar.refLength := by
      rw [Cigar.refLength_eq_countRef, Cigar.refLength_eq_countRef, hops, hl,
        countRef_append, countRef_append, countRef_filter_of_no_both pre hpre]
    have hlen_q : h.cigar.lstripQuery.queryLength =
        h.cigar.queryLength - (countQuery pre : Int) := by
      rw [Cigar.queryLength_eq_countQuery, Cigar.queryLength_eq_countQuery, hops, hl,
        countQuery_append, countQuery_append, countQuery_filter_not]
      push_cast
      ring
    show (h.cigar.lstripQuery.refToQuery.map fun p =>
        (p.1 + (h.r_ei - h.cigar.lstripQuery.refLength + 1),
         p.2 + (h.q_ei - h.cigar.lstripQuery.queryLength + 1))) =
      h.cigar.refToQuery.map fun p => (p.1 + h.r_st, p.2 + h.q_st)
    rw [hstr, horig, hlen_r, hlen_q]
    have hr : h.r_ei - h.cigar.refLength + 1 = h.r_st := by omega
    have hq : h.q_ei - (h.cigar.queryLength - (countQuery pre : Int)) + 1 =
        h.q_st + (countQuery pre : Int) := by omega
    rw [hr, hq, List.map_cons, List.map_cons, List.map_map, List.map_map]
    refine List.cons_eq_cons.mpr ⟨?_, ?_⟩
    · refine Prod.ext rfl ?_
      show (0 : Int) + (h.q_st + (countQuery pre : Int)) = (countQuery pre : Int) + h.q_st
      ring
    · refine List.map_congr_left fun p _ => ?_
      rw [Function.comp_apply, Function.comp_apply]
      refine Prod.ext rfl ?_
      show p.2 + ((0 : Int) + 1) + (h.q_st + (countQuery pre : Int)) =
        p.2 + ((countQuery pre : Int) + 1) + h.q_st
      ring
  · have hall : ∀ a ∈ h.cigar.ops, bothOp a = false := by
      intro a ha
      rcases hb : bothOp a
      · rfl
      · exact absurd ⟨a, ha, hb⟩ hex
    have h1 : h.cigar.refToQuery = [] :=
      refToQueryL_annotate_of_no_both h.cigar.ops hall 0 0 0
    have h2 : h.cigar.lstripQuery.refToQuery = [] := by
      have hall2 : ∀ a ∈ h.cigar.lstripQuery.ops, bothOp a = false := by
        rw [lstripQuery_ops_of_no_both h.cigar hall]
        exact no_both_of_filter_not_query h.cigar.ops
      exact refToQueryL_annotate_of_no_both h.cigar.lstripQuery.ops hall2 0 0 0
    show (h.cigar.lstripQuery.refToQuery.map fun p =>
        (p.1 + (h.r_ei - h.cigar.lstripQuery.refLength + 1),
         p.2 + (h.q_ei - h.cigar.lstripQuery.queryLength + 1))) =
      h.cigar.refToQuery.map fun p => (p.1 + h.r_st, p.2 + h.q_st)
    rw [h1, h2, List.map_nil, List.map_nil]

theorem rstripQuery_ops_of_no_both (c : Cigar)
    (h : ∀ a ∈ c.ops, bothOp a = false) :
    c.rstripQuery.ops = c.ops.filter fun a => !consumesQuery a := by
  have hRQ : c.refToQuery = [] := refToQueryL_annotate_of_no_both c.ops h 0 0 0
  have hmax : rstripQueryMaxOp c = none := by
    rw [rstripQueryMaxOp, hRQ]
    rfl
  rw [Cigar.rstripQuery, Cigar.ops_ofList, hmax, Cigar.opsPtrs,
    stripSeg_skip c.ops (leOptBound none) 0 0 0 (fun j _ _ => rfl),
    expand_map_singleton]

theorem refToQuery_decomp_last (c : Cigar) {pre post : List CigarActions}
    {m : CigarActions} (hl : c.ops = pre ++ m :: post) (hm : bothOp m = true)
    (hpost : ∀ a ∈ post, bothOp a = false) :
    c.refToQuery = refToQueryL (annotate pre 0 0 0) ++
      [((countRef pre : Int), (countQuery pre : Int))] := by
  rw [Cigar.refToQuery, Cigar.opsPtrs, hl, annotate_append, refToQueryL_append,
    annotate_cons_both m post _ _ _ hm, refToQueryL_cons_both,
    refToQueryL_annotate_of_no_both post hpost]
  simp only [zero_add]

theorem rstripQueryMaxOp_decomp (c : Cigar) {pre post : List CigarActions}
    {m : CigarActions} (hl : c.ops = pre ++ m :: post) (hm : bothOp m = true)
    (hpost : ∀ a ∈ post, bothOp a = false) :
    rstripQueryMaxOp c = some (pre.length : Int) := by
  rw [rstripQueryMaxOp, refToQuery_decomp_last c hl hm hpost, List.map_append,
    List.map_singleton]
  rw [listMax?_append_singleton]
  · rw [refToOp_decomp c hl hm]
    apply dictGet_append_cons
    intro p hp
    rcases (mem_refToOpL _ _).mp hp with ⟨o, ho, hptr, _⟩
    have := (annotate_refPtr_bounds pre 0 0 0 o ho p.1 hptr).2
    omega
  · intro y hy
    rcases List.mem_map.mp hy with ⟨p, hp, hpy⟩
    rcases (mem_refToQueryL _ _).mp hp with ⟨o, ho, hptr, _⟩
    have := (annotate_refPtr_bounds pre 0 0 0 o ho p.1 hptr).2
    omega

theorem rstripQuery_ops_decomp (c : Cigar) {pre post : List CigarActions}
    {m : CigarActions} (hl : c.ops = pre ++ m :: post) (hm : bothOp m = true)
    (hpost : ∀ a ∈ post, bothOp a = false) :
    c.rstripQuery.ops = pre ++ m :: (post.filter fun a => !consumesQuery a) := by
  rw [Cigar.rstripQuery, Cigar.ops_ofList, rstripQueryMaxOp_decomp c hl hm hpost,
    Cigar.opsPtrs, hl, annotate_append, List.filterMap_append]
  rw [stripSeg_keep pre (leOptBound (some (pre.length : Int))) 0 0 0 (by
    intro j _ h2
    rw [leOptBound]
    simp only [decide_eq_true_eq]
    omega)]
  rw [annotate_cons_both m post _ _ _ hm, List.filterMap_cons]
  simp only [zero_add]
  have hfm : leOptBound (some (pre.length : Int)) (pre.length : Int) = true := by
    rw [leOptBound]
    simp
  rw [hfm]
  simp only [Option.isNone_some, Bool.false_or, if_true]
  rw [stripSeg_skip post (leOptBound (some (pre.length : Int))) _ _ _ (by
    intro j h1 _
    rw [leOptBound]
    simp only [decide_eq_false_iff_not]
    omega)]
  rw [expand_append, expand_map_singleton, expand_cons, List.replicate_one,
    List.singleton_append, expand_map_singleton]

theorem rstripQuery_refToQuery (h : CigarHit) (hwf : WFHit h) :
    (CigarHit.rstripQuery h).refToQuery = h.refToQuery := by
  by_cases hex : ∃ a ∈ h.cigar.ops, bothOp a = true
  · obtain ⟨pre, m, post, hl, hm, hpost⟩ := exists_last_both hex
    have hops : h.cigar.rstripQuery.ops =
        pre ++ m :: (post.filter fun a => !consumesQuery a) :=
      rstripQuery_ops_decomp h.cigar hl hm hpost
    have hpostF : ∀ a ∈ post.filter fun a => !consumesQuery a, bothOp a = false :=
      fun a ha => hpost a (List.mem_filter.mp ha).1
    have horig : h.cigar.refToQuery = refToQueryL (annotate pre 0 0 0) ++
        [((countRef pre : Int), (countQuery pre : Int))] :=
      refToQuery_decomp_last h.cigar hl hm hpost
    have hstr : h.cigar.rstripQuery.refToQuery = refToQueryL (annotate pre 0 0 0) ++
        [((countRef pre : Int), (countQuery pre : Int))] :=
      refToQuery_decomp_last h.cigar.rstripQuery hops hm hpostF
    show (h.cigar.rstripQuery.refToQuery.map fun p =>
        (p.1 + h.r_st, p.2 + h.q_st)) =
      h.cigar.refToQuery.map fun p => (p.1 + h.r_st, p.2 + h.q_st)
    rw [horig, hstr]
  · have hall : ∀ a ∈ h.cigar.ops, bothOp a = false := by
      intro a ha
      rcases hb : bothOp a
      · rfl
      · exact absurd ⟨a, ha, hb⟩ hex
    have h1 : h.cigar.refToQuery = [] :=
      refToQueryL_annotate_of_no_both h.cigar.ops hall 0 0 0
    have h2 : h.cigar.rstripQuery.refToQuery = [] := by
      have hall2 : ∀ a ∈ h.cigar.rstripQuery.ops, bothOp a = false := by
        rw [rstripQuery_ops_of_no_both h.cigar hall]
        exact no_both_of_filter_not_query h.cigar.ops
      exact refToQueryL_annotate_of_no_both h.cigar.rstripQuery.ops hall2 0 0 0
    show (h.cigar.rstripQuery.refToQuery.map fun p =>
        (p.1 + h.r_st, p.2 + h.q_st)) =
      h.cigar.refToQuery.map fun p => (p.1 + h.r_st, p.2 + h.q_st)
    rw [h1, h2]

/-- Axis transposition of an operation: swaps the query-only group with the
reference-only group and fixes everything else. -/
def transposeOp : CigarActions → CigarActions
  | INSERT => DELETE
  | DELETE => INSERT
  | SOFT_CLIPPED => SKIPPED
  | SKIPPED => SOFT_CLIPPED
  | x => x

theorem transposeOp_transposeOp : ∀ a, transposeOp (transposeOp a) = a := by
  intro a
  cases a <;> rfl

theorem consumesRef_transposeOp : ∀ a, consumesRef (transposeOp a) = consumesQuery a := by
  intro a
  cases a <;> rfl

theorem consumesQuery_transposeOp : ∀ a, consumesQuery (transposeOp a) = consumesRef a := by
  intro a
  cases a <;> rfl

theorem transposeOp_inj {a b : CigarActions} (h : transposeOp a = transposeOp b) :
    a = b := by
  have := congrArg transposeOp h
  rwa [transposeOp_transposeOp, transposeOp_transposeOp] at this

/-- Axis transposition of a CIGAR. -/
def transposeCigar (c : Cigar) : Cigar where
  data := c.data.map fun p => (p.1, transposeOp p.2)
  wf := by
    obtain ⟨h1, h2⟩ := c.wf
    constructor
    · intro p hp
      rcases List.mem_map.mp hp with ⟨q, hq, hqp⟩
      rw [← hqp]
      exact h1 q hq
    · rw [List.chain'_map]
      refine List.Chain'.imp ?_ h2
      intro a b hab heq
      exact hab (transposeOp_inj heq)

theorem expand_map_pairT (l : List (Nat × CigarActions)) :
    expand (l.map fun p => (p.1, transposeOp p.2)) = (expand l).map transposeOp := by
  induction l with
  | nil => rfl
  | cons p t ih =>
    obtain ⟨n, a⟩ := p
    rw [List.map_cons, expand_cons, expand_cons, ih, List.map_append,
      List.map_replicate]

theorem transposeCigar_ops (c : Cigar) :
    (transposeCigar c).ops = c.ops.map transposeOp := by
  rw [Cigar.ops, Cigar.ops, transposeCigar, expand_map_pairT]

theorem transposeCigar_transposeCigar (c : Cigar) :
    transposeCigar (transposeCigar c) = c := by
  apply Cigar.ext_data
  show (c.data.map fun p => (p.1, transposeOp p.2)).map (fun p => (p.1, transposeOp p.2))
    = c.data
  have hcomp : ((fun p : Nat × CigarActions => (p.1, transposeOp p.2)) ∘
      fun p : Nat × CigarActions => (p.1, transposeOp p.2)) = id := by
    funext p
    simp [transposeOp_transposeOp]
  rw [List.map_map, hcomp, List.map_id]

theorem mergeRun_map_transposeOp (n : Nat) (a : CigarActions)
    (r : List (Nat × CigarActions)) :
    mergeRun n (transposeOp a) (r.map fun p => (p.1, transposeOp p.2)) =
      (mergeRun n a r).map fun p => (p.1, transposeOp p.2) := by
  rcases r with _ | ⟨⟨m, b⟩, t⟩
  · rfl
  · by_cases hab : a = b
    · subst hab
      rw [List.map_cons, mergeRun_cons_eq, mergeRun_cons_eq, List.map_cons]
    · have htab : transposeOp a ≠ transposeOp b := fun hh => hab (transposeOp_inj hh)
      rw [List.map_cons, mergeRun_cons_ne _ _ htab, mergeRun_cons_ne _ _ hab,
        List.map_cons, List.map_cons]

theorem normalize_map_transposeOp (l : List (Nat × CigarActions)) :
    normalize (l.map fun p => (p.1, transposeOp p.2)) =
      (normalize l).map fun p => (p.1, transposeOp p.2) := by
  induction l with
  | nil => rfl
  | cons p t ih =>
    obtain ⟨n, a⟩ := p
    show (if n = 0 then normalize (t.map fun p => (p.1, transposeOp p.2))
        else mergeRun n (transposeOp a) (normalize (t.map fun p => (p.1, transposeOp p.2))))
      = (if n = 0 then normalize t else mergeRun n a (normalize t)).map
          fun p => (p.1, transposeOp p.2)
    by_cases hn : n = 0
    · rw [if_pos hn, if_pos hn, ih]
    · rw [if_neg hn, if_neg hn, ih, mergeRun_map_transposeOp]

theorem ofList_map_transposeOp (l : List (Nat × CigarActions)) :
    Cigar.ofList (l.map fun p => (p.1, transposeOp p.2)) =
      transposeCigar (Cigar.ofList l) := by
  apply Cigar.ext_data
  show normalize (l.map fun p => (p.1, transposeOp p.2)) =
    (normalize l).map fun p => (p.1, transposeOp p.2)
  exact normalize_map_transposeOp l

theorem annotate_map_transposeOp (xs : List CigarActions) :
    ∀ i r q : Int, annotate (xs.map transposeOp) i r q =
      (annotate xs i q r).map fun o => ⟨o.idx, transposeOp o.op, o.qPtr, o.refPtr⟩ := by
  induction xs with
  | nil => intro i r q; rfl
  | cons a t ih =>
    intro i r q
    rcases hcr : consumesRef a <;> rcases hcq : consumesQuery a <;>
      simp only [List.map_cons, annotate, consumesRef_transposeOp,
        consumesQuery_transposeOp, hcr, hcq, Bool.false_and, Bool.true_and, if_true,
        if_false, Bool.false_eq_true, ih] <;>
      rfl

theorem queryToRefL_eq_swap (l : List OpInfo) :
    queryToRefL l = (refToQueryL l).map Prod.swap := by
  rw [queryToRefL, refToQueryL, List.map_filterMap]
  refine congrArg (fun f => List.filterMap f l) (funext fun o => ?_)
  obtain ⟨idx, op, rp, qp⟩ := o
  rcases rp with _ | rv <;> rcases qp with _ | qv <;> rfl

theorem transposeCigar_refToQuery (c : Cigar) :
    (transposeCigar c).refToQuery = c.queryToRef := by
  rw [Cigar.refToQuery, Cigar.queryToRef, Cigar.opsPtrs, Cigar.opsPtrs,
    transposeCigar_ops, annotate_map_transposeOp, refToQueryL, List.filterMap_map,
    queryToRefL]
  refine congrArg (fun f => List.filterMap f (annotate c.ops 0 0 0)) (funext fun o => ?_)
  obtain ⟨idx, op, rp, qp⟩ := o
  rcases rp with _ | rv <;> rcases qp with _ | qv <;> rfl

theorem transposeCigar_refToOp (c : Cigar) :
    (transposeCigar c).refToOp = c.queryToOp := by
  rw [Cigar.refToOp, Cigar.queryToOp, Cigar.opsPtrs, Cigar.opsPtrs,
    transposeCigar_ops, annotate_map_transposeOp, refToOpL, List.filterMap_map,
    queryToOpL]
  refine congrArg (fun f => List.filterMap f (annotate c.ops 0 0 0)) (funext fun o => ?_)
  obtain ⟨idx, op, rp, qp⟩ := o
  rcases rp with _ | rv <;> rcases qp with _ | qv <;> rfl

theorem transposeCigar_refLength (c : Cigar) :
    (transposeCigar c).refLength = c.queryLength := by
  rw [Cigar.refLength_eq_countRef, Cigar.queryLength_eq_countQuery,
    transposeCigar_ops, countRef, countQuery, List.countP_map]
  congr 2
  funext a
  rw [Function.comp_apply, consumesRef_transposeOp]

theorem transposeCigar_queryLength (c : Cigar) :
    (transposeCigar c).queryLength = c.refLength := by
  rw [Cigar.queryLength_eq_countQuery, Cigar.refLength_eq_countRef,
    transposeCigar_ops, countQuery, countRef, List.countP_map]
  congr 2
  funext a
  rw [Function.comp_apply, consumesQuery_transposeOp]

theorem lstripQueryMinOp_transposeCigar (c : Cigar) :
    lstripQueryMinOp (transposeCigar c) = lstripReferenceMinOp c := by
  rw [lstripQueryMinOp, lstripReferenceMinOp, transposeCigar_refToQuery,
    transposeCigar_refToOp]

theorem rstripQueryMaxOp_transposeCigar (c : Cigar) :
    rstripQueryMaxOp (transposeCigar c) = rstripReferenceMaxOp c := by
  rw [rstripQueryMaxOp, rstripReferenceMaxOp, transposeCigar_refToQuery,
    transposeCigar_refToOp]

theorem transposeCigar_lstripQuery (c : Cigar) :
    (transposeCigar c).lstripQuery = transposeCigar c.lstripReference := by
  unfold Cigar.lstripQuery Cigar.lstripReference
  rw [lstripQueryMinOp_transposeCigar, ← ofList_map_transposeOp]
  refine congrArg Cigar.ofList ?_
  rw [Cigar.opsPtrs, Cigar.opsPtrs, transposeCigar_ops, annotate_map_transposeOp,
    List.filterMap_map, List.map_filterMap]
  refine congrArg (fun f => List.filterMap f (annotate c.ops 0 0 0)) (funext fun o => ?_)
  obtain ⟨idx, op, rp, qp⟩ := o
  rcases hcond : rp.isNone || geOptBound (lstripReferenceMinOp c) idx <;>
    simp [hcond, Function.comp]

theorem transposeCigar_rstripQuery (c : Cigar) :
    (transposeCigar c).rstripQuery = transposeCigar c.rstripReference := by
  unfold Cigar.rstripQuery Cigar.rstripReference
  rw [rstripQueryMaxOp_transposeCigar, ← ofList_map_transposeOp]
  refine congrArg Cigar.ofList ?_
  rw [Cigar.opsPtrs, Cigar.opsPtrs, transposeCigar_ops, annotate_map_transposeOp,
    List.filterMap_map, List.map_filterMap]
  refine congrArg (fun f => List.filterMap f (annotate c.ops 0 0 0)) (funext fun o => ?_)
  obtain ⟨idx, op, rp, qp⟩ := o
  rcases hcond : rp.isNone || leOptBound (rstripReferenceMaxOp c) idx <;>
    simp [hcond, Function.comp]

/-- Axis transposition of a hit: swaps the reference and query intervals and
transposes the CIGAR. -/
def transposeHit (h : CigarHit) : CigarHit :=
  ⟨transposeCigar h.cigar, h.q_st, h.q_ei, h.r_st, h.r_ei⟩

theorem transposeHit_transposeHit (h : CigarHit) : transposeHit (transposeHit h) = h := by
  show (⟨transposeCigar (transposeCigar h.cigar), h.r_st, h.r_ei, h.q_st, h.q_ei⟩ :
    CigarHit) = h
  rw [transposeCigar_transposeCigar]

theorem WFHit_transposeHit {h : CigarHit} (hwf : WFHit h) : WFHit (transposeHit h) := by
  obtain ⟨h1, h2⟩ := hwf
  refine ⟨?_, ?_⟩
  · show h.q_ei + 1 - h.q_st = (transposeCigar h.cigar).refLength
    rw [transposeCigar_refLength]
    exact h2
  · show h.r_ei + 1 - h.r_st = (transposeCigar h.cigar).queryLength
    rw [transposeCigar_queryLength]
    exact h1

theorem transposeHit_refToQuery (x : CigarHit) :
    (transposeHit x).refToQuery = x.queryToRef := by
  show (transposeCigar x.cigar).refToQuery.map (fun p => (p.1 + x.q_st, p.2 + x.r_st)) = _
  rw [transposeCigar_refToQuery, CigarHit.queryToRef]

theorem queryToRef_eq_swap_hit (x : CigarHit) :
    x.queryToRef = x.refToQuery.map Prod.swap := by
  rw [CigarHit.queryToRef, CigarHit.refToQuery, Cigar.queryToRef, Cigar.refToQuery,
    queryToRefL_eq_swap, List.map_map, List.map_map]
  exact congrArg (fun f => List.map f (refToQueryL x.cigar.opsPtrs))
    (funext fun p => rfl)

theorem transposeHit_lstripQuery (h : CigarHit) :
    CigarHit.lstripQuery (transposeHit h) = transposeHit (CigarHit.lstripReference h) := by
  show (⟨(transposeCigar h.cigar).lstripQuery,
      h.q_ei - (transposeCigar h.cigar).lstripQuery.refLength + 1, h.q_ei,
      h.r_ei - (transposeCigar h.cigar).lstripQuery.queryLength + 1, h.r_ei⟩ :
    CigarHit) = _
  rw [transposeCigar_lstripQuery, transposeCigar_refLength, transposeCigar_queryLength]
  rfl

theorem transposeHit_rstripQuery (h : CigarHit) :
    CigarHit.rstripQuery (transposeHit h) = transposeHit (CigarHit.rstripReference h) := by
  show (⟨(transposeCigar h.cigar).rstripQuery,
      h.q_st, h.q_st + (transposeCigar h.cigar).rstripQuery.refLength - 1,
      h.r_st, h.r_st + (transposeCigar h.cigar).rstripQuery.queryLength - 1⟩ :
    CigarHit) = _
  rw [transposeCigar_rstripQuery, transposeCigar_refLength, transposeCigar_queryLength]
  rfl

theorem swap_swap_id : (Prod.swap ∘ Prod.swap : Int × Int → Int × Int) = id :=
  funext fun p => Prod.swap_swap p

theorem lstripReference_refToQuery (h : CigarHit) (hwf : WFHit h) :
    (CigarHit.lstripReference h).refToQuery = h.refToQuery := by
  have hT : transposeHit (CigarHit.lstripQuery (transposeHit h)) =
      CigarHit.lstripReference h := by
    rw [transposeHit_lstripQuery, transposeHit_transposeHit]
  rw [← hT, transposeHit_refToQuery, queryToRef_eq_swap_hit,
    lstripQuery_refToQuery (transposeHit h) (WFHit_transposeHit hwf),
    transposeHit_refToQuery, queryToRef_eq_swap_hit, List.map_map, swap_swap_id,
    List.map_id]

theorem rstripReference_refToQuery (h : CigarHit) (hwf : WFHit h) :
    (CigarHit.rstripReference h).refToQuery = h.refToQuery := by
  have hT : transposeHit (CigarHit.rstripQuery (transposeHit h)) =
      CigarHit.rstripReference h := by
    rw [transposeHit_rstripQuery, transposeHit_transposeHit]
  rw [← hT, transposeHit_refToQuery, queryToRef_eq_swap_hit,
    rstripQuery_refToQuery (transposeHit h) (WFHit_transposeHit hwf),
    transposeHit_refToQuery, queryToRef_eq_swap_hit, List.map_map, swap_swap_id,
    List.map_id]

/-- C10: each of the four strip operations of `CigarHit` (`lstrip_query`,
`rstrip_query`, `lstrip_reference`, `rstrip_reference`) preserves the
absolute reference-to-query coordinate mapping of the hit: the stripped
hit's `coordinate_mapping.ref_to_query` holds exactly the same key-value
pairs as the original's. -/
theorem strips_preserve_refToQuery (h : CigarHit) (hwf : WFHit h) :
    (CigarHit.lstripQuery h).refToQuery = h.refToQuery ∧
    (CigarHit.rstripQuery h).refToQuery = h.refToQuery ∧
    (CigarHit.lstripReference h).refToQuery = h.refToQuery ∧
    (CigarHit.rstripReference h).refToQuery = h.refToQuery :=
  ⟨lstripQuery_refToQuery h hwf, rstripQuery_refToQuery h hwf,
    lstripReference_refToQuery h hwf, rstripReference_refToQuery h hwf⟩

/-- Witness for C10 at the hit `1I2M@[5,7]->[3,4]`. -/
theorem strips_preserve_refToQuery_witness :
    WFHit ⟨Cigar.ofList [(1, INSERT), (2, MATCH)], 3, 4, 5, 7⟩ ∧
    ((CigarHit.lstripQuery ⟨Cigar.ofList [(1, INSERT), (2, MATCH)], 3, 4, 5, 7⟩).refToQuery
        = (⟨Cigar.ofList [(1, INSERT), (2, MATCH)], 3, 4, 5, 7⟩ : CigarHit).refToQuery ∧
      (CigarHit.rstripQuery ⟨Cigar.ofList [(1, INSERT), (2, MATCH)], 3, 4, 5, 7⟩).refToQuery
        = (⟨Cigar.ofList [(1, INSERT), (2, MATCH)], 3, 4, 5, 7⟩ : CigarHit).refToQuery ∧
      (CigarHit.lstripReference ⟨Cigar.ofList [(1, INSERT), (2, MATCH)], 3, 4, 5, 7⟩).refToQuery
        = (⟨Cigar.ofList [(1, INSERT), (2, MATCH)], 3, 4, 5, 7⟩ : CigarHit).refToQuery ∧
      (CigarHit.rstripReference ⟨Cigar.ofList [(1, INSERT), (2, MATCH)], 3, 4, 5, 7⟩).refToQuery
        = (⟨Cigar.ofList [(1, INSERT), (2, MATCH)], 3, 4, 5, 7⟩ : CigarHit).refToQuery) :=
  ⟨by decide, strips_preserve_refToQuery ⟨Cigar.ofList [(1, INSERT), (2, MATCH)], 3, 4, 5, 7⟩
    (by decide)⟩

/-- ASCII decimal digit test, the character class of the regexes
`([0-9]+)([^0-9])` in `cigar.py` and `\\d` in `cigar_hit.py`. -/
def isDigitCh (c : Char) : Bool := decide (48 ≤ c.toNat) && decide (c.toNat ≤ 57)

/-- Numeric value of a digit run, as computed by Python's `int`. -/
def charsToNat (l : List Char) : Nat := l.foldl (fun a c => 10 * a + (c.toNat - 48)) 0

/-- Big-endian digit characters of a positive integer; the first argument
is fuel (`n` itself suffices). -/
def natToCharsGo : Nat → Nat → List Char
  | 0, _ => []
  | fuel + 1, n => if n = 0 then [] else natToCharsGo fuel (n / 10) ++ [Nat.digitChar (n % 10)]

/-- Decimal rendering of a nonnegative integer (`'%d' % n`). -/
def natToChars (n : Nat) : List Char :=
  if n = 0 then ['0'] else natToCharsGo n n

/-- Decimal rendering of an integer (`'%d' % i`). -/
def intToChars (i : Int) : List Char :=
  if i < 0 then '-' :: natToChars i.natAbs else natToChars i.natAbs

/-- The character used by `CigarActions.__str__` (`OP_MAPPING_REV`). -/
def opChar : CigarActions → Char
  | MATCH => 'M'
  | INSERT => 'I'
  | DELETE => 'D'
  | SKIPPED => 'N'
  | SOFT_CLIPPED => 'S'
  | HARD_CLIPPED => 'H'
  | PADDING => 'P'
  | SEQ_MATCH => '='
  | MISMATCH => 'X'

/-- The mapping `OP_MAPPING` consulted by `CigarActions.parse`. -/
def charOp? (c : Char) : Option CigarActions :=
  if c = 'M' then some MATCH
  else if c = 'I' then some INSERT
  else if c = 'D' then some DELETE
  else if c = 'N' then some SKIPPED
  else if c = 'S' then some SOFT_CLIPPED
  else if c = 'H' then some HARD_CLIPPED
  else if c = 'P' then some PADDING
  else if c = '=' then some SEQ_MATCH
  else if c = 'X' then some MISMATCH
  else none

/-- `Cigar.parse_operation`: unknown action characters raise
`InvalidOperationError`. -/
def parseOperationE (c : Char) : Except PyErr CigarActions :=
  match charOp? c with
  | some a => .ok a
  | none => .error .invalidOperation

/-- `Cigar.__str__`: `''.join('{}{}'.format(num, op) for num, op in
self._data)`. -/
def cigarToChars (c : Cigar) : List Char :=
  c.data.flatMap fun p => natToChars p.1 ++ [opChar p.2]

/-- One regex step `([0-9]+)` with a mandatory following character: the
maximal leading digit run, failing when it is empty. -/
def readNum (s : List Char) : Option (Nat × List Char) :=
  if s.takeWhile isDigitCh = [] then none
  else some (charsToNat (s.takeWhile isDigitCh), s.dropWhile isDigitCh)

/-- The loop of `Cigar.parse`: repeatedly match `([0-9]+)([^0-9])` at the
front of the remaining string.  The first argument is fuel; `s.length`
suffices since every iteration consumes at least two characters. -/
def cigarParseGo : Nat → List Char → Except PyErr (List (Nat × CigarActions))
  | _, [] => .ok []
  | 0, _ :: _ => .error .parseError
  | fuel + 1, c0 :: s0 =>
    match readNum (c0 :: s0) with
    | none => .error .parseError
    | some (n, r) =>
      match r with
      | [] => .error .parseError
      | c :: r2 => do
        let a ← parseOperationE c
        let rest ← cigarParseGo fuel r2
        pure ((n, a) :: rest)

/-- `Cigar.parse` followed by the `Cigar` constructor (`Cigar.coerce` on a
string). -/
def cigarParseE (s : List Char) : Except PyErr Cigar :=
  (cigarParseGo s.length s).map Cigar.ofList

/-- Match one literal character at the front of the input. -/
def expectChar (c : Char) : List Char → Option (List Char)
  | [] => none
  | x :: r => if x = c then some r else none

/-- Matching the tail `@\[(\d+),(\d+)\]->\[(\d+),(\d+)\]` of
`parse_expr` as a prefix of the remaining input (trailing characters are
allowed: `re.match` does not anchor the end).  Returns
`(q_st, q_ei, r_st, r_ei)`. -/
def tailMatch (s : List Char) : Option (Nat × Nat × Nat × Nat) := do
  let s1 ← expectChar '@' s
  let s2 ← expectChar '[' s1
  let (q1, s3) ← readNum s2
  let s4 ← expectChar ',' s3
  let (q2, s5) ← readNum s4
  let s6 ← expectChar ']' s5
  let s7 ← expectChar '-' s6
  let s8 ← expectChar '>' s7
  let s9 ← expectChar '[' s8
  let (r1, s10) ← readNum s9
  let s11 ← expectChar ',' s10
  let (r2, s12) ← readNum s11
  let _ ← expectChar ']' s12
  pure (q1, q2, r1, r2)

/-- Backtracking search for the greedy group `(.+)` of `parse_expr`: the
longest newline-free nonempty prefix whose remainder matches the tail
pattern wins.  The argument is the prefix length currently tried. -/
def findSplitGo (s : List Char) : Nat → Option (List Char × (Nat × Nat × Nat × Nat))
  | 0 => none
  | i + 1 =>
    if '\n' ∈ s.take (i + 1) then findSplitGo s i
    else
      match tailMatch (s.drop (i + 1)) with
      | some t => some (s.take (i + 1), t)
      | none => findSplitGo s i

/-- `parse_expr.match(string)` of `cigar_hit.py`. -/
def hitMatch (s : List Char) : Option (List Char × (Nat × Nat × Nat × Nat)) :=
  findSplitGo s s.length

/-- `CigarHit.__str__`:
`'%s@[%d,%d]->[%d,%d]' % (cigar, q_st, q_ei, r_st, r_ei)`. -/
def hitToChars (h : CigarHit) : List Char :=
  cigarToChars h.cigar ++ '@' :: '[' ::
    (intToChars h.q_st ++ ',' ::
      (intToChars h.q_ei ++ ']' :: '-' :: '>' :: '[' ::
        (intToChars h.r_st ++ ',' :: (intToChars h.r_ei ++ [']']))))

/-- `CigarHit.parse`: regex match, the two interval sanity checks, the
CIGAR parse, and the `CigarHit` constructor, in the source's order. -/
def parseHit (s : List Char) : Except PyErr CigarHit :=
  match hitMatch s with
  | none => .error .parseError
  | some (a, (q1, q2, r1, r2)) =>
    if (q1 : Int) > (q2 : Int) + 1 then .error .parseError
    else if (r1 : Int) > (r2 : Int) + 1 then .error .parseError
    else
      match cigarParseE a with
      | .error e => .error e
      | .ok c => mkCigarHit c (r1 : Int) (r2 : Int) (q1 : Int) (q2 : Int)

/-- C2 counterexample: the well-formed empty-cigar hit with collapsed
intervals serializes to the string `@[1,0]->[1,0]`, which `CigarHit.parse`
rejects (the regex group for the CIGAR part requires at least one
character), so `parse(str(h)) == h` fails for it. -/
theorem parse_str_roundtrip_empty_fails :
    WFHit ⟨Cigar.ofList [], 1, 0, 1, 0⟩ ∧
    parseHit (hitToChars ⟨Cigar.ofList [], 1, 0, 1, 0⟩) = .error .parseError := by
  decide

theorem charsToNat_append_singleton (A : List Char) (c : Char) :
    charsToNat (A ++ [c]) = 10 * charsToNat A + (c.toNat - 48) := by
  unfold charsToNat
  rw [List.foldl_append]
  rfl

theorem digitChar_toNat_sub {m : Nat} (hm : m < 10) :
    (Nat.digitChar m).toNat - 48 = m := by
  interval_cases m <;> decide

theorem isDigitCh_digitChar {m : Nat} (hm : m < 10) :
    isDigitCh (Nat.digitChar m) = true := by
  interval_cases m <;> decide

theorem charsToNat_natToCharsGo :
    ∀ fuel n : Nat, n ≤ fuel → charsToNat (natToCharsGo fuel n) = n := by
  intro fuel
  induction fuel with
  | zero =>
    intro n hn
    interval_cases n
    rfl
  | succ f ih =>
    intro n hn
    by_cases h0 : n = 0
    · subst h0
      rfl
    · have hdiv : n / 10 ≤ f := by omega
      have hm : n % 10 < 10 := Nat.mod_lt _ (by norm_num)
      show charsToNat (if n = 0 then [] else natToCharsGo f (n / 10) ++ [Nat.digitChar (n % 10)]) = n
      rw [if_neg h0, charsToNat_append_singleton, ih _ hdiv, digitChar_toNat_sub hm]
      omega

theorem charsToNat_natToChars (n : Nat) : charsToNat (natToChars n) = n := by
  by_cases h0 : n = 0
  · subst h0
    decide
  · unfold natToChars
    rw [if_neg h0]
    exact charsToNat_natToCharsGo n n le_rfl

theorem natToCharsGo_digits :
    ∀ fuel n : Nat, ∀ c ∈ natToCharsGo fuel n, isDigitCh c = true := by
  intro fuel
  induction fuel with
  | zero =>
    intro n c hc
    simp [natToCharsGo] at hc
  | succ f ih =>
    intro n c hc
    by_cases h0 : n = 0
    · subst h0
      simp [natToCharsGo] at hc
    · rw [show natToCharsGo (f + 1) n
          = natToCharsGo f (n / 10) ++ [Nat.digitChar (n % 10)] by
        show (if n = 0 then [] else _) = _
        rw [if_neg h0]] at hc
      rcases List.mem_append.mp hc with hc | hc
      · exact ih _ c hc
      · have hm : n % 10 < 10 := Nat.mod_lt _ (by norm_num)
        rw [List.mem_singleton.mp hc]
        exact isDigitCh_digitChar hm

theorem natToChars_digits (n : Nat) : ∀ c ∈ natToChars n, isDigitCh c = true := by
  by_cases h0 : n = 0
  · subst h0
    intro c hc
    rw [List.mem_singleton.mp hc]
    decide
  · unfold natToChars
    rw [if_neg h0]
    exact natToCharsGo_digits n n

theorem natToChars_ne_nil (n : Nat) : natToChars n ≠ [] := by
  by_cases h0 : n = 0
  · subst h0
    decide
  · unfold natToChars
    rw [if_neg h0]
    rcases n with _ | f
    · exact absurd rfl h0
    · show (if f + 1 = 0 then [] else natToCharsGo f ((f + 1) / 10)
        ++ [Nat.digitChar ((f + 1) % 10)]) ≠ []
      rw [if_neg h0]
      simp

theorem takeWhile_digit_run {A : List Char} (hA : ∀ c ∈ A, isDigitCh c = true)
    {b : Char} (hb : isDigitCh b = false) (r : List Char) :
    (A ++ b :: r).takeWhile isDigitCh = A ∧
      (A ++ b :: r).dropWhile isDigitCh = b :: r := by
  induction A with
  | nil =>
    constructor
    · simp [List.takeWhile_cons, hb]
    · simp [List.dropWhile_cons, hb]
  | cons a A ih =>
    have ha : isDigitCh a = true := hA a (by simp)
    obtain ⟨ih1, ih2⟩ := ih fun c hc => hA c (by simp [hc])
    constructor
    · simp [List.takeWhile_cons, ha, ih1]
    · simp [List.dropWhile_cons, ha, ih2]

theorem readNum_exact {A : List Char} (hA : ∀ c ∈ A, isDigitCh c = true)
    (hne : A ≠ []) {b : Char} (hb : isDigitCh b = false) (r : List Char) :
    readNum (A ++ b :: r) = some (charsToNat A, b :: r) := by
  obtain ⟨h1, h2⟩ := takeWhile_digit_run hA hb r
  unfold readNum
  rw [h1, h2, if_neg hne]

theorem isDigitCh_opChar (a : CigarActions) : isDigitCh (opChar a) = false := by
  cases a <;> decide

theorem parseOperationE_opChar (a : CigarActions) :
    parseOperationE (opChar a) = .ok a := by
  cases a <;> decide

theorem cigarParseGo_ok (l : List (Nat × CigarActions)) (hpos : ∀ p ∈ l, 1 ≤ p.1) :
    ∀ fuel, (l.flatMap fun p => natToChars p.1 ++ [opChar p.2]).length ≤ fuel →
      cigarParseGo fuel (l.flatMap fun p => natToChars p.1 ++ [opChar p.2]) = .ok l := by
  induction l with
  | nil =>
    intro fuel _
    cases fuel <;> rfl
  | cons p t ih =>
    obtain ⟨n, a⟩ := p
    intro fuel hf
    have hshape : (((n, a) :: t).flatMap fun p => natToChars p.1 ++ [opChar p.2])
        = natToChars n ++
          (opChar a :: (t.flatMap fun p => natToChars p.1 ++ [opChar p.2])) := by
      simp [List.flatMap_cons]
    rw [hshape] at hf ⊢
    rcases hA : natToChars n with _ | ⟨c0, A0⟩
    · exact absurd hA (natToChars_ne_nil n)
    rcases fuel with _ | f
    · simp at hf
    have hread : readNum ((c0 :: A0) ++
          opChar a :: (t.flatMap fun p => natToChars p.1 ++ [opChar p.2]))
        = some (charsToNat (c0 :: A0),
            opChar a :: (t.flatMap fun p => natToChars p.1 ++ [opChar p.2])) :=
      readNum_exact (hA ▸ natToChars_digits n) (by simp) (isDigitCh_opChar a) _
    rw [List.cons_append] at hread ⊢
    have hfl : (t.flatMap fun p => natToChars p.1 ++ [opChar p.2]).length ≤ f := by
      simp only [List.length_cons, List.length_append] at hf
      omega
    show (match readNum (c0 :: (A0 ++
        opChar a :: (t.flatMap fun p => natToChars p.1 ++ [opChar p.2]))) with
      | none => Except.error PyErr.parseError
      | some (n, r) =>
        match r with
        | [] => Except.error PyErr.parseError
        | c :: r2 => do
          let a ← parseOperationE c
          let rest ← cigarParseGo f r2
          pure ((n, a) :: rest)) = Except.ok ((n, a) :: t)
    rw [hread]
    show (do
      let a2 ← parseOperationE (opChar a)
      let rest ← cigarParseGo f (t.flatMap fun p => natToChars p.1 ++ [opChar p.2])
      pure ((charsToNat (c0 :: A0), a2) :: rest)) = Except.ok ((n, a) :: t)
    rw [parseOperationE_opChar]
    show (do
      let rest ← cigarParseGo f (t.flatMap fun p => natToChars p.1 ++ [opChar p.2])
      pure ((charsToNat (c0 :: A0), a) :: rest) :
        Except PyErr (List (Nat × CigarActions))) = Except.ok ((n, a) :: t)
    rw [ih (fun q hq => hpos q (List.mem_cons_of_mem _ hq)) f hfl]
    show Except.ok ((charsToNat (c0 :: A0), a) :: t) = Except.ok ((n, a) :: t)
    rw [← hA, charsToNat_natToChars]

theorem cigarParseE_roundtrip (c : Cigar) : cigarParseE (cigarToChars c) = .ok c := by
  unfold cigarParseE cigarToChars
  rw [cigarParseGo_ok c.data c.wf.1 _ le_rfl]
  show Except.ok (Cigar.ofList c.data) = Except.ok c
  rw [Cigar.ofList_data_self]

theorem tailMatch_exact {Q1 Q2 R1 R2 : List Char}
    (hQ1 : ∀ c ∈ Q1, isDigitCh c = true) (hQ1n : Q1 ≠ [])
    (hQ2 : ∀ c ∈ Q2, isDigitCh c = true) (hQ2n : Q2 ≠ [])
    (hR1 : ∀ c ∈ R1, isDigitCh c = true) (hR1n : R1 ≠ [])
    (hR2 : ∀ c ∈ R2, isDigitCh c = true) (hR2n : R2 ≠ []) :
    tailMatch ('@' :: '[' ::
        (Q1 ++ ',' :: (Q2 ++ ']' :: '-' :: '>' :: '[' :: (R1 ++ ',' :: (R2 ++ [']'])))))
      = some (charsToNat Q1, charsToNat Q2, charsToNat R1, charsToNat R2) := by
  have e1 : isDigitCh ',' = false := by decide
  have e2 : isDigitCh ']' = false := by decide
  simp [tailMatch, expectChar, readNum_exact hQ1 hQ1n e1, readNum_exact hQ2 hQ2n e2,
    readNum_exact hR1 hR1n e1, readNum_exact hR2 hR2n e2]

theorem tailMatch_head (s : List Char) {t : Nat × Nat × Nat × Nat}
    (h : tailMatch s = some t) : s.head? = some '@' := by
  rcases s with _ | ⟨c, r⟩
  · simp [tailMatch, expectChar] at h
  · by_cases hc : c = '@'
    · rw [hc]
      rfl
    · exfalso
      simp [tailMatch, expectChar, hc] at h

theorem at_position_unique {C T : List Char} (hC : '@' ∉ C) (hT : '@' ∉ T) :
    ∀ i, ((C ++ '@' :: T).drop i).head? = some '@' → i = C.length := by
  intro i h
  rw [List.head?_drop, List.getElem?_append] at h
  by_cases hi : i < C.length
  · rw [if_pos hi] at h
    exact absurd (List.getElem?_mem h) hC
  · rw [if_neg hi] at h
    rcases hj : i - C.length with _ | j
    · omega
    · rw [hj, List.getElem?_cons_succ] at h
      exact absurd (List.getElem?_mem h) hT

theorem findSplitGo_spec (s : List Char) (k : Nat) (t : Nat × Nat × Nat × Nat)
    (hk1 : 1 ≤ k)
    (hat : ∀ i, ((s.drop i).head?) = some '@' → i = k)
    (hnl : '\n' ∉ s.take k)
    (ht : tailMatch (s.drop k) = some t) :
    ∀ n, k ≤ n → findSplitGo s n = some (s.take k, t) := by
  intro n
  induction n with
  | zero =>
    intro hn
    omega
  | succ i ih =>
    intro hn
    by_cases hik : i + 1 = k
    · subst hik
      simp only [findSplitGo]
      rw [if_neg hnl, ht]
    · have hki : k ≤ i := by omega
      simp only [findSplitGo]
      by_cases hnl2 : '\n' ∈ s.take (i + 1)
      · rw [if_pos hnl2]
        exact ih hki
      · rw [if_neg hnl2]
        have hnone : tailMatch (s.drop (i + 1)) = none := by
          rcases htm : tailMatch (s.drop (i + 1)) with _ | t2
          · rfl
          · exact absurd (hat _ (tailMatch_head _ htm)) hik
        rw [hnone]
        exact ih hki

theorem cigarToChars_chars {c : Cigar} {ch : Char} (h : ch ∈ cigarToChars c) :
    isDigitCh ch = true ∨ ch ∈ ['M', 'I', 'D', 'N', 'S', 'H', 'P', '=', 'X'] := by
  unfold cigarToChars at h
  rcases List.mem_flatMap.mp h with ⟨p, hp, hch⟩
  rcases List.mem_append.mp hch with hch | hch
  · exact Or.inl (natToChars_digits _ _ hch)
  · right
    rw [List.mem_singleton.mp hch]
    rcases p with ⟨n, a⟩
    cases a <;> simp [opChar]

theorem cigarToChars_no (c : Cigar) (ch : Char) (h1 : isDigitCh ch = false)
    (h2 : ch ∉ ['M', 'I', 'D', 'N', 'S', 'H', 'P', '=', 'X']) :
    ch ∉ cigarToChars c := by
  intro h
  rcases cigarToChars_chars h with h | h
  · rw [h1] at h
    exact Bool.noConfusion h
  · exact h2 h

theorem at_not_in_tail {Q1 Q2 R1 R2 : List Char}
    (hQ1 : ∀ c ∈ Q1, isDigitCh c = true) (hQ2 : ∀ c ∈ Q2, isDigitCh c = true)
    (hR1 : ∀ c ∈ R1, isDigitCh c = true) (hR2 : ∀ c ∈ R2, isDigitCh c = true) :
    '@' ∉ '[' ::
      (Q1 ++ ',' :: (Q2 ++ ']' :: '-' :: '>' :: '[' :: (R1 ++ ',' :: (R2 ++ [']'])))) := by
  intro h
  rcases List.mem_cons.mp h with h | h
  · exact absurd h (by decide)
  rcases List.mem_append.mp h with h | h
  · exact absurd (hQ1 _ h) (by decide)
  rcases List.mem_cons.mp h with h | h
  · exact absurd h (by decide)
  rcases List.mem_append.mp h with h | h
  · exact absurd (hQ2 _ h) (by decide)
  rcases List.mem_cons.mp h with h | h
  · exact absurd h (by decide)
  rcases List.mem_cons.mp h with h | h
  · exact absurd h (by decide)
  rcases List.mem_cons.mp h with h | h
  · exact absurd h (by decide)
  rcases List.mem_cons.mp h with h | h
  · exact absurd h (by decide)
  rcases List.mem_append.mp h with h | h
  · exact absurd (hR1 _ h) (by decide)
  rcases List.mem_cons.mp h with h | h
  · exact absurd h (by decide)
  rcases List.mem_append.mp h with h | h
  · exact absurd (hR2 _ h) (by decide)
  · exact absurd (List.mem_singleton.mp h) (by decide)

theorem cigar_queryLength_nonneg (c : Cigar) : (0 : Int) ≤ c.queryLength := by
  unfold Cigar.queryLength
  exact foldl_max_isUB _ 0 0 (List.mem_cons_self _ _)

theorem cigar_refLength_nonneg (c : Cigar) : (0 : Int) ≤ c.refLength := by
  unfold Cigar.refLength
  exact foldl_max_isUB _ 0 0 (List.mem_cons_self _ _)

/-- C2 (amended): `CigarHit.parse` inverts `CigarHit.__str__` for every
well-formed hit whose CIGAR is non-empty and whose four interval endpoints
are nonnegative.  (An empty CIGAR renders as an empty group that the regex
`(.+)@...` cannot match, and a negative endpoint renders with a sign that
the `\\d+` groups cannot match, so those hits fail to re-parse.) -/
theorem parse_str_roundtrip (h : CigarHit) (hwf : WFHit h)
    (hne : h.cigar.data ≠ []) (hq1 : 0 ≤ h.q_st) (hq2 : 0 ≤ h.q_ei)
    (hr1 : 0 ≤ h.r_st) (hr2 : 0 ≤ h.r_ei) :
    parseHit (hitToChars h) = .ok h := by
  obtain ⟨hwr, hwq⟩ := hwf
  have hqle : h.q_st ≤ h.q_ei + 1 := by
    have h0 := cigar_queryLength_nonneg h.cigar
    have h1 : h.q_ei + 1 - h.q_st = h.cigar.queryLength := hwq
    omega
  have hrle : h.r_st ≤ h.r_ei + 1 := by
    have h0 := cigar_refLength_nonneg h.cigar
    have h1 : h.r_ei + 1 - h.r_st = h.cigar.refLength := hwr
    omega
  have eq1 : intToChars h.q_st = natToChars h.q_st.natAbs := by
    unfold intToChars
    rw [if_neg (by omega)]
  have eq2 : intToChars h.q_ei = natToChars h.q_ei.natAbs := by
    unfold intToChars
    rw [if_neg (by omega)]
  have eq3 : intToChars h.r_st = natToChars h.r_st.natAbs := by
    unfold intToChars
    rw [if_neg (by omega)]
  have eq4 : intToChars h.r_ei = natToChars h.r_ei.natAbs := by
    unfold intToChars
    rw [if_neg (by omega)]
  have hs : hitToChars h = cigarToChars h.cigar ++ '@' ::
      ('[' :: (natToChars h.q_st.natAbs ++ ',' :: (natToChars h.q_ei.natAbs ++
        ']' :: '-' :: '>' :: '[' :: (natToChars h.r_st.natAbs ++ ',' ::
          (natToChars h.r_ei.natAbs ++ [']']))))) := by
    unfold hitToChars
    rw [eq1, eq2, eq3, eq4]
  have hlen : 1 ≤ (cigarToChars h.cigar).length := by
    rcases hd : h.cigar.data with _ | ⟨p, rest⟩
    · exact absurd hd hne
    · show 1 ≤ (cigarToChars h.cigar).length
      unfold cigarToChars
      rw [hd, List.flatMap_cons, List.length_append, List.length_append,
        List.length_singleton]
      omega
  have hCat : '@' ∉ cigarToChars h.cigar := cigarToChars_no _ _ (by decide) (by decide)
  have hCnl : '\n' ∉ cigarToChars h.cigar := cigarToChars_no _ _ (by decide) (by decide)
  have hTat : '@' ∉ '[' :: (natToChars h.q_st.natAbs ++ ',' ::
      (natToChars h.q_ei.natAbs ++ ']' :: '-' :: '>' :: '[' ::
        (natToChars h.r_st.natAbs ++ ',' :: (natToChars h.r_ei.natAbs ++ [']'])))) :=
    at_not_in_tail (natToChars_digits _) (natToChars_digits _) (natToChars_digits _)
      (natToChars_digits _)
  have htail : tailMatch ((hitToChars h).drop (cigarToChars h.cigar).length)
      = some (h.q_st.natAbs, h.q_ei.natAbs, h.r_st.natAbs, h.r_ei.natAbs) := by
    rw [hs, List.drop_left]
    have hx := tailMatch_exact (natToChars_digits h.q_st.natAbs) (natToChars_ne_nil _)
      (natToChars_digits h.q_ei.natAbs) (natToChars_ne_nil _)
      (natToChars_digits h.r_st.natAbs) (natToChars_ne_nil _)
      (natToChars_digits h.r_ei.natAbs) (natToChars_ne_nil _)
    rw [charsToNat_natToChars, charsToNat_natToChars, charsToNat_natToChars,
      charsToNat_natToChars] at hx
    exact hx
  have hat : ∀ i, (((hitToChars h).drop i).head?) = some '@' →
      i = (cigarToChars h.cigar).length := by
    rw [hs]
    exact at_position_unique hCat hTat
  have hnl : '\n' ∉ (hitToChars h).take (cigarToChars h.cigar).length := by
    rw [hs, List.take_left]
    exact hCnl
  have hk : (cigarToChars h.cigar).length ≤ (hitToChars h).length := by
    rw [hs, List.length_append]
    omega
  have hsplit : hitMatch (hitToChars h)
      = some ((hitToChars h).take (cigarToChars h.cigar).length,
          (h.q_st.natAbs, h.q_ei.natAbs, h.r_st.natAbs, h.r_ei.natAbs)) :=
    findSplitGo_spec _ _ _ hlen hat hnl htail _ hk
  have htake : (hitToChars h).take (cigarToChars h.cigar).length
      = cigarToChars h.cigar := by
    rw [hs, List.take_left]
  rw [htake] at hsplit
  have hc1 : (h.q_st.natAbs : Int) = h.q_st := Int.natAbs_of_nonneg hq1
  have hc2 : (h.q_ei.natAbs : Int) = h.q_ei := Int.natAbs_of_nonneg hq2
  have hc3 : (h.r_st.natAbs : Int) = h.r_st := Int.natAbs_of_nonneg hr1
  have hc4 : (h.r_ei.natAbs : Int) = h.r_ei := Int.natAbs_of_nonneg hr2
  unfold parseHit
  rw [hsplit]
  show (if ((h.q_st.natAbs : Int)) > ((h.q_ei.natAbs : Int)) + 1 then
      Except.error PyErr.parseError
    else if ((h.r_st.natAbs : Int)) > ((h.r_ei.natAbs : Int)) + 1 then
      Except.error PyErr.parseError
    else match cigarParseE (cigarToChars h.cigar) with
      | .error e => .error e
      | .ok c => mkCigarHit c (h.r_st.natAbs : Int) (h.r_ei.natAbs : Int)
          (h.q_st.natAbs : Int) (h.q_ei.natAbs : Int)) = Except.ok h
  rw [if_neg (by rw [hc1, hc2]; omega), if_neg (by rw [hc3, hc4]; omega),
    cigarParseE_roundtrip]
  show mkCigarHit h.cigar (h.r_st.natAbs : Int) (h.r_ei.natAbs : Int)
      (h.q_st.natAbs : Int) (h.q_ei.natAbs : Int) = Except.ok h
  rw [hc1, hc2, hc3, hc4]
  unfold mkCigarHit
  have hwrU : h.r_ei + 1 - h.r_st = h.cigar.refLength := hwr
  have hwqU : h.q_ei + 1 - h.q_st = h.cigar.queryLength := hwq
  rw [if_pos hwrU, if_pos hwqU]

/-- Witness for the amended C2 at the hit `2M@[3,4]->[0,1]`. -/
theorem parse_str_roundtrip_witness :
    (WFHit ⟨Cigar.ofList [(2, MATCH)], 0, 1, 3, 4⟩ ∧
      (⟨Cigar.ofList [(2, MATCH)], 0, 1, 3, 4⟩ : CigarHit).cigar.data ≠ [] ∧
      (0 : Int) ≤ (⟨Cigar.ofList [(2, MATCH)], 0, 1, 3, 4⟩ : CigarHit).q_st ∧
      (0 : Int) ≤ (⟨Cigar.ofList [(2, MATCH)], 0, 1, 3, 4⟩ : CigarHit).q_ei ∧
      (0 : Int) ≤ (⟨Cigar.ofList [(2, MATCH)], 0, 1, 3, 4⟩ : CigarHit).r_st ∧
      (0 : Int) ≤ (⟨Cigar.ofList [(2, MATCH)], 0, 1, 3, 4⟩ : CigarHit).r_ei) ∧
    parseHit (hitToChars ⟨Cigar.ofList [(2, MATCH)], 0, 1, 3, 4⟩)
      = .ok ⟨Cigar.ofList [(2, MATCH)], 0, 1, 3, 4⟩ :=
  ⟨⟨by decide, by decide, by decide, by decide, by decide, by decide⟩,
    parse_str_roundtrip ⟨Cigar.ofList [(2, MATCH)], 0, 1, 3, 4⟩ (by decide) (by decide)
      (by decide) (by decide) (by decide) (by decide)⟩

end Aligntools
